import Mathlib

/-!
# Verification of the incremental download-and-flatten pipeline

Shallow embedding of the pipeline implemented in `download.py` of the
Apple-Music-to-FLAC-converter repository: the path sanitizer
(`strip_track_number`), the file relocator (`move_new_files`,
`flatten_downloads`), the progress parser and the download session
orchestrator (`run_download`).

Strings are modelled as `List Char`.  The regex character classes `\d` and
`\s` of Python are modelled over their ASCII fragment (the only characters
exercised by the program's own patterns and by ordinary filenames).
Filesystem state is a list of files (directory path as a list of path
components, plus a file name) together with a list of existing directories.
-/

namespace RippleSpec

/-! ## Character classes (ASCII fragment of Python's regex classes) -/

/-- Python regex `\d` (ASCII fragment): a decimal digit. -/
def isDig (c : Char) : Bool := '0' ≤ c && c ≤ '9'

/-- Python regex `\s` / `str.strip` whitespace (ASCII fragment). -/
def isPySpace (c : Char) : Bool :=
  c = ' ' || c = '\t' || c = '\n' || c = '\r' || c = '\x0b' || c = '\x0c'

/-- The character class `[-\s]` used by `strip_track_number`'s regex. -/
def isSep (c : Char) : Bool := c = '-' || isPySpace c

/-- The separator class named by the spec's prose: literally a hyphen or a
space (used to state the claim as written, for comparison with `isSep`). -/
def specSep (c : Char) : Bool := c = '-' || c = ' '

/-! ## Generic list-string utilities -/

/-- Boolean test that `p` is a prefix of `s`. -/
def lpre {α : Type} [DecidableEq α] : List α → List α → Bool
  | [], _ => true
  | _ :: _, [] => false
  | a :: p, b :: s => a = b && lpre p s

/-- Boolean test that `p` is a suffix of `s`. -/
def lsuf {α : Type} [DecidableEq α] (p s : List α) : Bool :=
  lpre p.reverse s.reverse

/-- Boolean test that `pat` occurs as a contiguous substring of `s`
(Python's `pat in s`). -/
def hasSub (pat : List Char) : List Char → Bool
  | [] => lpre pat []
  | c :: rest => lpre pat (c :: rest) || hasSub pat rest

/-- Python `str.strip()` (ASCII whitespace fragment). -/
def pyStrip (l : List Char) : List Char :=
  ((l.dropWhile isPySpace).reverse.dropWhile isPySpace).reverse

/-- Non-overlapping left-to-right substring replacement, fuelled by the
length of the subject string; Python's `str.replace(pat, rep)` for a
non-empty `pat`. -/
def replaceSubAux (pat rep : List Char) : Nat → List Char → List Char
  | 0, s => s
  | _ + 1, [] => []
  | fuel + 1, c :: rest =>
    if lpre pat (c :: rest) && !pat.isEmpty then
      rep ++ replaceSubAux pat rep fuel ((c :: rest).drop pat.length)
    else
      c :: replaceSubAux pat rep fuel rest

/-- Python `str.replace(pat, rep)` for non-empty `pat`. -/
def replaceSub (pat rep s : List Char) : List Char :=
  replaceSubAux pat rep s.length s

/-- Python `str.lower()` (ASCII). -/
def lowerL (s : List Char) : List Char := s.map Char.toLower

/-- Python `str.title()` (ASCII): the first cased character of every run of
cased characters is uppercased, the rest are lowercased. -/
def pyTitleAux : Bool → List Char → List Char
  | _, [] => []
  | prevCased, c :: r =>
    let cased := c.isAlpha
    let c' := if cased then (if prevCased then c.toLower else c.toUpper) else c
    c' :: pyTitleAux cased r

/-- Python `str.title()` (ASCII). -/
def pyTitle (s : List Char) : List Char := pyTitleAux false s

/-! ## The path sanitizer: `strip_track_number` (download.py, lines 48-59)

`re.sub(r'^(\d+[-\s])+', '', filename)` removes the greedy match of the
anchored pattern.  Because a digit is never a separator, the greedy match
consumes, one unit at a time, a maximal non-empty run of digits followed by
one separator character, and repeats for as long as another unit follows. -/

/-- Consume one unit `\d+[-\s]` from the front of the string, if present. -/
def stripUnit (s : List Char) : Option (List Char) :=
  if (s.takeWhile isDig).isEmpty then none
  else
    match s.dropWhile isDig with
    | c :: r => if isSep c then some r else none
    | [] => none

/-- Iterate `stripUnit` to a fixed point (fuelled; each unit consumes at
least two characters, so `s.length` steps always suffice). -/
def stripRunsAux : Nat → List Char → List Char
  | 0, s => s
  | fuel + 1, s =>
    match stripUnit s with
    | some r => stripRunsAux fuel r
    | none => s

/-- Remove the greedy match of `^(\d+[-\s])+` from the front of `s`. -/
def stripRuns (s : List Char) : List Char := stripRunsAux s.length s

/-- `strip_track_number` from download.py: remove the leading track-number
run; if that would leave the empty string, return the input unchanged. -/
def strip_track_number (filename : List Char) : List Char :=
  let cleaned := stripRuns filename
  if cleaned.isEmpty then filename else cleaned

/-- Declarative reading of the pattern `(\d+[-\s])+` (parametrised by the
separator class): the string is a non-empty sequence of units, each a
non-empty digit run followed by one separator. -/
inductive RunSeq (sep : Char → Bool) : List Char → Prop
  | unit (ds : List Char) (c : Char) :
      ds ≠ [] → (∀ d ∈ ds, isDig d = true) → sep c = true →
      RunSeq sep (ds ++ [c])
  | cons (ds : List Char) (c : Char) (t : List Char) :
      ds ≠ [] → (∀ d ∈ ds, isDig d = true) → sep c = true →
      RunSeq sep t → RunSeq sep (ds ++ c :: t)

/-- Boolean decision procedure for `RunSeq` (deterministic unit scan),
parametrised by the separator class. -/
def runSeqAux (sep : Char → Bool) : Nat → List Char → Bool
  | 0, _ => false
  | fuel + 1, s =>
    if (s.takeWhile isDig).isEmpty then false
    else
      match s.dropWhile isDig with
      | c :: r => sep c && (r.isEmpty || runSeqAux sep fuel r)
      | [] => false

/-- Boolean decision procedure for `RunSeq sep`. -/
def runSeqB (sep : Char → Bool) (s : List Char) : Bool :=
  runSeqAux sep s.length s

/-- The length of the longest prefix of `s` matching `(\d+[-\s])+` (zero
when no non-empty prefix matches). -/
def maxRun (s : List Char) : Nat :=
  Nat.findGreatest (fun k => runSeqB isSep (s.take k) = true) s.length

/-- The number of characters consumed from `s` by the greedy unit scan. -/
def stripLen (s : List Char) : Nat := s.length - (stripRuns s).length

/-! ## pathlib name components and decimal rendering -/

/-- Index of the last `'.'` in a name, if any (Python `str.rfind('.')`). -/
def rfindDot (l : List Char) : Option Nat :=
  (l.reverse.findIdx? (fun c => c = '.')).map (fun j => l.length - 1 - j)

/-- CPython `PurePath.suffix`: the part of the name from its last dot,
provided that dot is neither the first nor the last character. -/
def pySuffix (name : List Char) : List Char :=
  match rfindDot name with
  | some i => if 0 < i ∧ i < name.length - 1 then name.drop i else []
  | none => []

/-- CPython `PurePath.stem`: the name with `pySuffix` removed. -/
def pyStem (name : List Char) : List Char :=
  match rfindDot name with
  | some i => if 0 < i ∧ i < name.length - 1 then name.take i else name
  | none => name

/-- Decimal digit character for `n < 10`. -/
def digChar : Nat → Char
  | 0 => '0' | 1 => '1' | 2 => '2' | 3 => '3' | 4 => '4'
  | 5 => '5' | 6 => '6' | 7 => '7' | 8 => '8' | 9 => '9'
  | _ => '?'

/-- Numeric value of a digit character. -/
def digVal (c : Char) : Nat := c.toNat - 48

/-- Decimal rendering of a natural number, fuelled (`n < fuel`). -/
def natReprAux : Nat → Nat → List Char
  | 0, _ => []
  | fuel + 1, n =>
    if n < 10 then [digChar n] else natReprAux fuel (n / 10) ++ [digChar (n % 10)]

/-- Decimal rendering of a natural number (Python's `str(n)` / f-string). -/
def natReprL (n : Nat) : List Char := natReprAux (n + 1) n

/-- Value of a digit string (Python `int(s)` for a `\d+` match). -/
def digitsVal (l : List Char) : Nat := l.foldl (fun a c => a * 10 + digVal c) 0

/-! ## Filesystem model -/

/-- A file: directory path (list of path components) plus file name. -/
structure FSFile where
  dir : List (List Char)
  name : List Char
deriving DecidableEq, Repr

/-- Filesystem state: the set of files and the set of existing directories,
as lists. -/
structure FS where
  files : List FSFile
  dirs : List (List (List Char))
deriving DecidableEq, Repr

/-- Boolean test that file `f` lies (at any depth) under directory `d` --
the files yielded by `d.rglob(...)`. -/
def underDir (d : List (List Char)) (f : FSFile) : Bool := lpre d f.dir

/-- `mkdir(parents=True, exist_ok=True)`: add the directory and all its
missing ancestors. -/
def mkdirp (d : List (List Char)) (fs : FS) : FS :=
  { fs with dirs :=
      fs.dirs ++ (((List.range (d.length + 1)).map (fun k => d.take k)).filter
        (fun p => decide (p ∉ fs.dirs))) }

/-- `shutil.rmtree(d, ignore_errors=True)`: remove every file and directory
under `d`, including `d` itself. -/
def rmtree (d : List (List Char)) (fs : FS) : FS :=
  { files := fs.files.filter (fun f => !underDir d f),
    dirs := fs.dirs.filter (fun p => !lpre d p) }

/-! ## The file relocator (download.py, lines 61-156) -/

/-- The audio extension set of download.py. -/
def audioExts : List (List Char) :=
  [".m4a".data, ".flac".data, ".mp3".data, ".opus".data, ".aac".data]

/-- The extension list scanned by a relocation pass
(`audio_extensions + ['.lrc']` when lyric sidecars are included). -/
def extsFor (includeLrc : Bool) : List (List Char) :=
  audioExts ++ if includeLrc then [".lrc".data] else []

/-- Is no file called `n` present in directory `d`?
(`not (target_dir / n).exists()`). -/
def nameFree (files : List FSFile) (d : List (List Char)) (n : List Char) : Bool :=
  files.all (fun f => decide (¬(f.dir = d ∧ f.name = n)))

/-- The collision candidate `f"{stem}_{counter}{suffix}"`. -/
def collideName (stem sfx : List Char) (k : Nat) : List Char :=
  stem ++ '_' :: (natReprL k ++ sfx)

/-- The `while target_path.exists(): counter += 1` search, fuelled; returns
the first free collision candidate with index at least `k`. -/
def findFreeAux (files : List FSFile) (d : List (List Char)) (stem sfx : List Char) :
    Nat → Nat → List Char
  | _, 0 => []
  | k, fuel + 1 =>
    if nameFree files d (collideName stem sfx k) then collideName stem sfx k
    else findFreeAux files d stem sfx (k + 1) fuel

/-- The target-name choice of both relocation passes (download.py lines
86-95 and 139-147): the sanitized name if free, otherwise
`{stem}_{counter}{suffix}` for the first free counter starting at 1, where
`stem` is the sanitized name's stem and `suffix` is the source file's
suffix. -/
def chooseName (files : List FSFile) (d : List (List Char)) (clean sfx : List Char) :
    List Char :=
  if nameFree files d clean then clean
  else findFreeAux files d (pyStem clean) sfx 1 (files.length + 1)

/-- State threaded through `move_new_files`: filesystem files, the
`already_moved` path set, and the `newly_moved` name list. -/
structure MoveSt where
  files : List FSFile
  am : List FSFile
  nm : List (List Char)
deriving DecidableEq, Repr

/-- The body of `move_new_files`'s inner loop for one candidate file:
skip if already moved; otherwise compute the collision-free target name and
attempt the move (`fails f = true` models `shutil.move` raising, which is
swallowed and records nothing). -/
def processFile (d : List (List Char)) (fails : FSFile → Bool) (st : MoveSt)
    (f : FSFile) : MoveSt :=
  if f ∈ st.am then st
  else
    let clean := strip_track_number f.name
    let tname := chooseName st.files d clean (pySuffix f.name)
    if fails f then st
    else
      { files := st.files.erase f ++ [⟨d, tname⟩],
        am := st.am ++ [f],
        nm := st.nm ++ if pySuffix f.name ∈ audioExts then [clean] else [] }

/-- The files yielded by `temp_dir.rglob('*' + ext)`. -/
def candidates (files : List FSFile) (temp : List (List Char)) (ext : List Char) :
    List FSFile :=
  files.filter (fun f => underDir temp f && lsuf ext f.name)

/-- `move_new_files(temp_dir, target_dir, already_moved, include_lrc)`:
for each extension in order, move every not-yet-moved matching file from
the scratch directory into the target directory. -/
def move_new_files (temp target : List (List Char)) (includeLrc : Bool)
    (fails : FSFile → Bool) (st : MoveSt) : MoveSt :=
  (extsFor includeLrc).foldl
    (fun s e => (candidates s.files temp e).foldl (processFile target fails) s) st

/-- One move of `flatten_downloads`'s loop (no failure handling there). -/
def flattenStep (d : List (List Char)) (acc : List FSFile × Nat) (f : FSFile) :
    List FSFile × Nat :=
  let clean := strip_track_number f.name
  let tname := chooseName acc.1 d clean (pySuffix f.name)
  (acc.1.erase f ++ [⟨d, tname⟩],
   acc.2 + if pySuffix f.name ∈ audioExts then 1 else 0)

/-- The candidate snapshot `all_files` of `flatten_downloads`: all files
under the scratch directory matching any scanned extension, gathered in
extension order. -/
def flattenCands (temp : List (List Char)) (includeLrc : Bool)
    (files : List FSFile) : List FSFile :=
  (extsFor includeLrc).foldl (fun acc e => acc ++ candidates files temp e) []

/-- The target directory of `flatten_downloads`: `final_dir / playlist_name`
when a playlist name is given, else `final_dir`. -/
def flattenTarget (finalDir : List (List Char)) (pl : Option (List Char)) :
    List (List Char) :=
  match pl with
  | some p => finalDir ++ [p]
  | none => finalDir

/-- `flatten_downloads(temp_dir, final_dir, playlist_name, include_lrc)`:
snapshot all matching files, create the target directory, move everything
(counting audio files only), then delete the scratch tree.  Returns the new
filesystem and the count. -/
def flatten_downloads (temp finalDir : List (List Char)) (pl : Option (List Char))
    (includeLrc : Bool) (fs : FS) : FS × Nat :=
  let cands := flattenCands temp includeLrc fs.files
  let target := flattenTarget finalDir pl
  let fs1 := mkdirp target fs
  let res := cands.foldl (flattenStep target) (fs1.files, 0)
  (rmtree temp { fs1 with files := res.1 }, res.2)

/-! ## Regex scanners for the progress parser

Each of download.py's three searched patterns is of the shape
"literal, then a non-empty greedy run of characters excluding a stop
character, then the stop character"; `re.search` tries successive start
positions left to right. -/

/-- Try a position-wise matcher at every start position, left to right
(the behaviour of `re.search`). -/
def scanWith {α : Type} (m : List Char → Option α) : List Char → Option α
  | [] => m []
  | c :: rest =>
    match m (c :: rest) with
    | some g => some g
    | none => scanWith m rest

/-- Match `pat([^stopc]+)stopc` anchored at the start of `s`, returning the
captured group. -/
def segAt (pat : List Char) (stopc : Char) (s : List Char) : Option (List Char) :=
  if lpre pat s then
    let r := s.drop pat.length
    let g := r.takeWhile (fun c => decide (c ≠ stopc))
    if !g.isEmpty && decide ((r.drop g.length).head? = some stopc) then some g
    else none
  else none

/-- `re.search(pat + '([^stopc]+)' + stopc, s)`, returning group 1. -/
def segScan (pat : List Char) (stopc : Char) (s : List Char) : Option (List Char) :=
  scanWith (segAt pat stopc) s

/-- Match `\[Track (\d+)/(\d+)\]` anchored at the start of `s`. -/
def trackAt (s : List Char) : Option (Nat × Nat) :=
  if lpre "[Track ".data s then
    let r := s.drop 7
    let d1 := r.takeWhile isDig
    let r1 := r.drop d1.length
    if d1.isEmpty then none
    else
      match r1 with
      | c :: r2 =>
        if c = '/' then
          let d2 := r2.takeWhile isDig
          if !d2.isEmpty && decide ((r2.drop d2.length).head? = some ']') then
            some (digitsVal d1, digitsVal d2)
          else none
        else none
      | [] => none
  else none

/-- `re.search(r'\[Track (\d+)/(\d+)\]', line)`. -/
def findTrack (s : List Char) : Option (Nat × Nat) := scanWith trackAt s

/-- `re.search(r'playlist/([^/]+)/', line)`, group 1. -/
def findPlaylistSeg (s : List Char) : Option (List Char) :=
  segScan "playlist/".data '/' s

/-- `re.search(r'Downloading "([^"]+)"', line)`, group 1. -/
def findSong (s : List Char) : Option (List Char) :=
  segScan "Downloading \"".data '\"' s

/-- Normalisation applied to a fetcher-detected playlist path segment:
`raw.replace('-', ' ').replace('%20', ' ')` (download.py line 268). -/
def normName (g : List Char) : List Char :=
  replaceSub "%20".data " ".data (replaceSub "-".data " ".data g)

/-- `extract_playlist_name(url)` (download.py lines 158-166):
`re.search(r'/playlist/([^/]+)/', url)`, then
`group(1).replace('-', ' ').title()`. -/
def extract_playlist_name (url : List Char) : Option (List Char) :=
  match segScan "/playlist/".data '/' url with
  | some g => some (pyTitle (replaceSub "-".data " ".data g))
  | none => none

/-! ## The download session orchestrator (download.py, lines 168-343) -/

/-- The per-session tracking state of `run_download`. -/
structure Session where
  total : Nat
  current : Nat
  detected : Option (List Char)
  currentSong : Option (List Char)
  downloaded : List (List Char)
  failed : List (List Char)
deriving DecidableEq, Repr

/-- The orchestrator state during STREAMING: session tracking, filesystem,
and the `already_moved` set. -/
structure OState where
  sess : Session
  fs : FS
  am : List FSFile
deriving DecidableEq, Repr

/-- One iteration of the streaming loop: a line read from the subprocess,
whether the 2-second wall-clock interval had elapsed when it was processed,
and the files the fetcher finished writing just before it. -/
structure LineEvent where
  line : List Char
  tick : Bool
  writes : List FSFile
deriving DecidableEq, Repr

/-- The playlist-detection test of the streaming loop (download.py lines
263-268): the match fires only on lines containing `Processing` whose
playlist regex matches, and only while no name has been detected yet. -/
def detLine (detected : Option (List Char)) (l : List Char) : Option (List Char) :=
  if hasSub "Processing".data l then
    match findPlaylistSeg l with
    | some g => if detected = none then some (normName g) else none
    | none => none
  else none

/-- The `[Track i/n]` update (download.py lines 274-279). -/
def parseTrack (l : List Char) (s : Session) : Session :=
  match findTrack l with
  | some ti => { s with current := ti.1, total := ti.2 }
  | none => s

/-- The `Downloading "<title>"` update (download.py lines 281-287). -/
def parseSong (l : List Char) (s : Session) : Session :=
  match findSong l with
  | some t => { s with currentSong := some t, downloaded := s.downloaded ++ [t] }
  | none => s

/-- The failure-marker update (download.py lines 290-293). -/
def parseFail (l : List Char) (s : Session) : Session :=
  if hasSub "Error downloading".data l || hasSub "Skipping".data l then
    match s.currentSong with
    | some t => if t ∈ s.failed then s else { s with failed := s.failed ++ [t] }
    | none => s
  else s

/-- The body of `run_download`'s streaming loop for one line (download.py
lines 260-300): record fetcher writes, strip the line, attempt playlist
detection (first match wins, creating the playlist directory), parse the
track-progress marker, the song-start marker and the failure marker, then,
if the wall-clock interval elapsed, run the incremental relocation -- which
the code guards with `if detected_playlist_name:`. -/
def procLine (downloads temp : List (List Char)) (includeLrc : Bool)
    (fails : FSFile → Bool) (st : OState) (ev : LineEvent) : OState :=
  let fs0 : FS := { st.fs with files := st.fs.files ++ ev.writes }
  let l := pyStrip ev.line
  let det := detLine st.sess.detected l
  let sess1 := match det with
    | some nm => { st.sess with detected := some nm }
    | none => st.sess
  let fs1 := match det with
    | some nm => mkdirp (downloads ++ [nm]) fs0
    | none => fs0
  let sess4 := parseFail l (parseSong l (parseTrack l sess1))
  if ev.tick then
    match sess4.detected with
    | some p =>
      let mst := move_new_files temp (downloads ++ [p]) includeLrc fails
        ⟨fs1.files, st.am, []⟩
      ⟨sess4, { fs1 with files := mst.files }, mst.am⟩
    | none => ⟨sess4, fs1, st.am⟩
  else ⟨sess4, fs1, st.am⟩

/-- `final_files = [target_dir.rglob('*' + ext) for ext in audio]; len(...)`
(download.py lines 318-324): the audio-file count of the final report. -/
def audioCount (target : List (List Char)) (files : List FSFile) : Nat :=
  (audioExts.map
    (fun e => (files.filter (fun f => underDir target f && lsuf e f.name)).length)).sum

/-- The verification report of the REPORTED step. -/
structure Report where
  filesDownloaded : Nat
  location : Option (List Char)
  failedShown : List (List Char)
  moreCount : Nat
  fullSuccess : Bool
  retval : Bool
deriving DecidableEq, Repr

/-- Everything `run_download` leaves behind: the report, the final session
tracking state, and the final filesystem. -/
structure RunResult where
  report : Report
  sess : Session
  fs : FS
deriving DecidableEq, Repr

/-- The verification report of download.py lines 326-343: the failed list is
shown only when non-empty and truncated to 10 entries with an "and N more"
overflow note; full success is reported only when nothing failed,
`total_tracks > 0` and the counted files reach the total; the return value
is `exit code == 0 and files_downloaded > 0`. -/
def mkReport (failed : List (List Char)) (total cnt : Nat)
    (loc : Option (List Char)) (ec : Int) : Report :=
  { filesDownloaded := cnt,
    location := loc,
    failedShown := failed.take 10,
    moreCount := if 10 < failed.length then failed.length - 10 else 0,
    fullSuccess := failed.isEmpty && decide (0 < total) && decide (total ≤ cnt),
    retval := ec == 0 && decide (0 < cnt) }

/-- `run_download(url, options, downloads_dir, cookies_path)` for a
completed session: recreate the scratch directory, precompute the
URL-derived playlist name, stream the subprocess output (`events`),
flatten the remaining files, count audio files in the final target
directory, and build the report.  `exitCode` is the subprocess's exit
status; `fails` is the oracle for incremental-move failures. -/
def run_download (downloads : List (List Char)) (url : List Char)
    (includeLrc : Bool) (fails : FSFile → Bool) (fs0 : FS)
    (events : List LineEvent) (exitCode : Int) : RunResult :=
  let temp := downloads ++ [".gamdl_temp".data]
  let fsA := mkdirp temp (rmtree temp fs0)
  let urlName :=
    if hasSub "playlist".data (lowerL url) then extract_playlist_name url else none
  let st0 : OState := ⟨⟨0, 0, none, none, [], []⟩, fsA, []⟩
  let stF := events.foldl (procLine downloads temp includeLrc fails) st0
  let finalName := match stF.sess.detected with
    | some d => some d
    | none => urlName
  let target := match finalName with
    | some p => downloads ++ [p]
    | none => downloads
  let fsB := match finalName with
    | some p => mkdirp (downloads ++ [p]) stF.fs
    | none => stF.fs
  let fsC := (flatten_downloads temp downloads finalName includeLrc fsB).1
  let cnt := audioCount target fsC.files
  ⟨mkReport stF.sess.failed stF.sess.total cnt finalName exitCode,
   stF.sess, fsC⟩

/-! ## Auxiliary notions used in theorem statements -/

/-- The identity of a file on disk: its directory and name. -/
def fkey (f : FSFile) : List (List Char) × List Char := (f.dir, f.name)

/-- No two files of the list occupy the same on-disk path. -/
def nodupKeys (files : List FSFile) : Prop := (files.map fkey).Nodup

/-- Does a raw output line fire the playlist-detection branch of the
streaming loop (`'Processing' in line` and the playlist regex matches)? -/
def playlistMarker (l : List Char) : Bool :=
  hasSub "Processing".data (pyStrip l) && (findPlaylistSeg (pyStrip l)).isSome

/-- All files written by the fetcher over a list of streaming events. -/
def eventWrites (events : List LineEvent) : List FSFile :=
  (events.map LineEvent.writes).flatten

/-! ## Concrete scenario data (used by counterexamples and witnesses) -/

/-- The base downloads directory of the scenarios. -/
def dldir : List (List Char) := ["Downloads".data]

/-- The scratch directory `Downloads/.gamdl_temp` of the scenarios. -/
def tmpdir : List (List Char) := dldir ++ [".gamdl_temp".data]

/-- A move-failure oracle under which every move succeeds. -/
def noFail : FSFile → Bool := fun _ => false

/-- A streaming event with tick flag off and no fetcher writes. -/
def mkEv (l : String) : LineEvent := ⟨l.data, false, []⟩

/-- A streaming event with tick flag off that also delivers fetcher
writes. -/
def mkEvW (l : String) (w : List FSFile) : LineEvent := ⟨l.data, false, w⟩

/-- Initial state for the collision scenario: three scratch files that all
sanitize to the same name. -/
def collSt : MoveSt :=
  ⟨[⟨tmpdir, "01 Song.m4a".data⟩, ⟨tmpdir, "02 Song.m4a".data⟩,
    ⟨tmpdir, "03 Song.m4a".data⟩], [], []⟩

/-- The end-to-end scenario of the spec: `[Track i/3]` markers, three song
starts, one failure marker after song B, and audio files for A and C
written to the scratch directory. -/
def c2events : List LineEvent :=
  [mkEv "[Track 1/3]",
   mkEvW "Downloading \"A\"" [⟨tmpdir, "A.m4a".data⟩],
   mkEv "[Track 2/3]",
   mkEv "Downloading \"B\"",
   mkEv "Error downloading",
   mkEv "[Track 3/3]",
   mkEvW "Downloading \"C\"" [⟨tmpdir, "C.m4a".data⟩]]

/-- The end-to-end scenario run: non-playlist URL, exit code 0. -/
def c2run : RunResult :=
  run_download dldir "https://x".data false noFail ⟨[], [dldir]⟩ c2events 0

/-- Streaming state with empty session tracking over a filesystem holding
one finished scratch file. -/
def c1st0 : OState :=
  ⟨⟨0, 0, none, none, [], []⟩, ⟨[], [dldir, tmpdir]⟩, []⟩

/-- A streaming event whose wall-clock tick has elapsed, carrying a
finished scratch file, on a line with no playlist marker. -/
def c1ev : LineEvent := ⟨"working".data, true, [⟨tmpdir, "song.m4a".data⟩]⟩

/-- The single-step result of the no-detection tick scenario. -/
def c1res : OState := procLine dldir tmpdir false noFail c1st0 c1ev

/-- Streaming state with a playlist name already detected and one finished
scratch file on disk. -/
def c1bst : OState :=
  ⟨⟨0, 0, some "Mix".data, none, [], []⟩,
   ⟨[⟨tmpdir, "a.m4a".data⟩], [dldir, tmpdir]⟩, []⟩

/-- A tick event carrying no writes on an unremarkable line. -/
def c1bev : LineEvent := ⟨"x".data, true, []⟩

/-- Initial streaming state of the detection scenario. -/
def c6init : OState := ⟨⟨0, 0, none, none, [], []⟩, ⟨[], [dldir]⟩, []⟩

/-- First playlist-marker line of the detection scenario. -/
def c6ev1 : LineEvent := mkEv "Processing playlist/My-Great-MIX/x"

/-- Second playlist-marker line (a different segment). -/
def c6ev2 : LineEvent := mkEv "Processing playlist/Other-List/x"

/-- Detection scenario: both marker lines processed in order. -/
def c6res : OState :=
  ([c6ev1, c6ev2]).foldl (procLine dldir tmpdir false noFail) c6init

/-- Pre-session filesystem of the count scenario: one audio file already in
the base directory and one inside a pre-existing playlist subdirectory. -/
def c10fs0 : FS :=
  ⟨[⟨dldir, "old.m4a".data⟩, ⟨dldir ++ ["OldList".data], "x.m4a".data⟩],
   [dldir, dldir ++ ["OldList".data]]⟩

/-- The count scenario events: a single downloaded track. -/
def c10events : List LineEvent :=
  [mkEvW "Downloading \"New\"" [⟨tmpdir, "new.m4a".data⟩]]

/-- The count scenario run: no playlist is ever detected. -/
def c10run : RunResult :=
  run_download dldir "https://y".data false noFail c10fs0 c10events 0

/-! ## Generic lemmas -/

theorem lpre_iff {α : Type} [DecidableEq α] :
    ∀ (p s : List α), lpre p s = true ↔ p <+: s := by
  intro p
  induction p with
  | nil => intro s; simp [lpre]
  | cons a p ih =>
    intro s
    cases s with
    | nil => simp [lpre]
    | cons b s =>
      simp only [lpre, Bool.and_eq_true, decide_eq_true_eq, List.cons_prefix_cons, ih]

theorem lsuf_iff (p s : List Char) : lsuf p s = true ↔ p <:+ s := by
  rw [lsuf, lpre_iff, List.reverse_prefix]

theorem foldl_preserve {α β : Type} (P : β → Prop) (g : β → α → β) :
    ∀ (l : List α) (b : β), P b → (∀ x ∈ l, ∀ s, P s → P (g s x)) →
      P (l.foldl g b) := by
  intro l
  induction l with
  | nil => intro b hb _; exact hb
  | cons x l ih =>
    intro b hb hstep
    exact ih (g b x) (hstep x (by simp) b hb)
      (fun y hy s hs => hstep y (by simp [hy]) s hs)

theorem foldl_fixed {α β : Type} (g : β → α → β) :
    ∀ (l : List α) (b : β), (∀ x ∈ l, g b x = b) → l.foldl g b = b := by
  intro l
  induction l with
  | nil => intro b _; rfl
  | cons x l ih =>
    intro b h
    have hx : g b x = b := h x (by simp)
    simp only [List.foldl_cons, hx]
    exact ih b (fun y hy => h y (by simp [hy]))

theorem foldl_establish {α β : Type} (P : α → β → Prop) (g : β → α → β) :
    ∀ (l : List α) (b : β),
      (∀ x ∈ l, ∀ s, P x (g s x)) →
      (∀ x y s, P x s → P x (g s y)) →
      ∀ x ∈ l, P x (l.foldl g b) := by
  intro l
  induction l with
  | nil => intro b _ _ x hx; cases hx
  | cons a l ih =>
    intro b hest hpres x hx
    rcases List.mem_cons.1 hx with rfl | hx
    · exact foldl_preserve (P x) g l (g b x) (hest x (by simp) b)
        (fun y _ s hs => hpres x y s hs)
    · exact ih (g b a) (fun z hz s => hest z (by simp [hz]) s) hpres x hx

/-! ## Lemmas about the sanitizer -/

theorem sep_not_dig {c : Char} (h : isSep c = true) : isDig c = false := by
  simp only [isSep, isPySpace, Bool.or_eq_true, decide_eq_true_eq, or_assoc] at h
  rcases h with h | h | h | h | h | h | h <;> subst h <;> decide

theorem specSep_not_dig {c : Char} (h : specSep c = true) : isDig c = false := by
  simp only [specSep, Bool.or_eq_true, decide_eq_true_eq] at h
  rcases h with h | h <;> subst h <;> decide

theorem takeWhile_digits {ds : List Char} {c : Char} (r : List Char)
    (hds : ∀ d ∈ ds, isDig d = true) (hc : isDig c = false) :
    ((ds ++ c :: r).takeWhile isDig = ds) ∧
    ((ds ++ c :: r).dropWhile isDig = c :: r) := by
  induction ds with
  | nil => simp [List.takeWhile, List.dropWhile, hc]
  | cons d ds ih =>
    have hd : isDig d = true := hds d (by simp)
    have ih' := ih (fun x hx => hds x (by simp [hx]))
    simp [List.takeWhile_cons, List.dropWhile_cons, hd, ih'.1, ih'.2]

theorem stripUnit_build {ds : List Char} {c : Char} (r : List Char)
    (hne : ds ≠ []) (hds : ∀ d ∈ ds, isDig d = true) (hc : isSep c = true) :
    stripUnit (ds ++ c :: r) = some r := by
  have h := takeWhile_digits r hds (sep_not_dig hc)
  rw [stripUnit, h.1, h.2]
  simp [List.isEmpty_iff, hne, hc]

theorem stripUnit_some {s r : List Char} (h : stripUnit s = some r) :
    ∃ ds c, s = ds ++ c :: r ∧ ds ≠ [] ∧ (∀ d ∈ ds, isDig d = true) ∧
      isSep c = true := by
  rw [stripUnit] at h
  by_cases he : (s.takeWhile isDig).isEmpty
  · simp [he] at h
  · simp only [he, if_neg, Bool.false_eq_true, not_false_iff, if_false] at h
    rcases hd : s.dropWhile isDig with _ | ⟨c, t⟩
    · rw [hd] at h; cases h
    · rw [hd] at h
      by_cases hc : isSep c = true
      · simp only [hc, if_true, Option.some.injEq] at h
        subst h
        refine ⟨s.takeWhile isDig, c, ?_, ?_, ?_, hc⟩
        · conv_lhs => rw [← List.takeWhile_append_dropWhile isDig s]
          rw [hd]
        · simpa [List.isEmpty_iff] using he
        · exact fun d hdm => List.mem_takeWhile_imp hdm
      · simp [hc] at h

theorem stripUnit_length {s r : List Char} (h : stripUnit s = some r) :
    r.length + 2 ≤ s.length := by
  obtain ⟨ds, c, rfl, hne, -, -⟩ := stripUnit_some h
  have : 1 ≤ ds.length := List.length_pos.2 hne
  simp [List.length_append]
  omega

theorem stripRunsAux_stable :
    ∀ (f₁ f₂ : Nat) (s : List Char), s.length ≤ f₁ → s.length ≤ f₂ →
      stripRunsAux f₁ s = stripRunsAux f₂ s := by
  intro f₁
  induction f₁ with
  | zero =>
    intro f₂ s h₁ _
    have : s = [] := List.eq_nil_of_length_eq_zero (Nat.le_zero.1 h₁)
    subst this
    cases f₂ with
    | zero => rfl
    | succ g => simp [stripRunsAux, stripUnit, List.takeWhile]
  | succ f ih =>
    intro f₂ s h₁ h₂
    cases hs : stripUnit s with
    | none =>
      cases f₂ with
      | zero => simp [stripRunsAux, hs]
      | succ g => simp [stripRunsAux, hs]
    | some r =>
      have hlen := stripUnit_length hs
      cases f₂ with
      | zero => omega
      | succ g =>
        simp only [stripRunsAux, hs]
        exact ih g r (by omega) (by omega)

theorem stripRuns_unit {s r : List Char} (h : stripUnit s = some r) :
    stripRuns s = stripRuns r := by
  have hlen := stripUnit_length h
  rw [stripRuns, stripRuns]
  cases hs : s.length with
  | zero => omega
  | succ m =>
    simp only [stripRunsAux, h]
    exact stripRunsAux_stable m r.length r (by omega) (le_refl _)

theorem stripRuns_none {s : List Char} (h : stripUnit s = none) :
    stripRuns s = s := by
  rw [stripRuns]
  cases s.length with
  | zero => rfl
  | succ m => simp [stripRunsAux, h]

theorem stripRuns_sufAux :
    ∀ (n : Nat) (s : List Char), s.length ≤ n → stripRuns s <:+ s := by
  intro n
  induction n with
  | zero =>
    intro s h
    have hnil : s = [] := List.eq_nil_of_length_eq_zero (Nat.le_zero.1 h)
    subst hnil
    exact List.suffix_rfl
  | succ n ih =>
    intro s h
    cases hs : stripUnit s with
    | none => rw [stripRuns_none hs]
    | some r =>
      have hlen := stripUnit_length hs
      rw [stripRuns_unit hs]
      have h₁ : stripRuns r <:+ r := ih r (by omega)
      obtain ⟨ds, c, rfl, -, -, -⟩ := stripUnit_some hs
      exact h₁.trans ⟨ds ++ [c], by simp⟩

theorem stripRuns_suffix (s : List Char) : stripRuns s <:+ s :=
  stripRuns_sufAux s.length s le_rfl

theorem stripRuns_length_le (s : List Char) :
    (stripRuns s).length ≤ s.length :=
  (stripRuns_suffix s).length_le

theorem runSeq_ne_nil {sep : Char → Bool} {s : List Char}
    (h : RunSeq sep s) : s ≠ [] := by
  cases h <;> simp

theorem runSeqAux_sound {sep : Char → Bool} :
    ∀ (fuel : Nat) (s : List Char), runSeqAux sep fuel s = true → RunSeq sep s := by
  intro fuel
  induction fuel with
  | zero => intro s h; simp [runSeqAux] at h
  | succ f ih =>
    intro s h
    rw [runSeqAux] at h
    by_cases he : (s.takeWhile isDig).isEmpty
    · simp [he] at h
    · simp only [he, Bool.false_eq_true, not_false_iff, if_false] at h
      rcases hd : s.dropWhile isDig with _ | ⟨c, r⟩
      · rw [hd] at h; cases h
      · rw [hd] at h
        simp only [Bool.and_eq_true, Bool.or_eq_true] at h
        have hs : s = s.takeWhile isDig ++ c :: r := by
          conv_lhs => rw [← List.takeWhile_append_dropWhile isDig s]
          rw [hd]
        have hne : s.takeWhile isDig ≠ [] := by simpa [List.isEmpty_iff] using he
        have hdig : ∀ d ∈ s.takeWhile isDig, isDig d = true :=
          fun d hdm => List.mem_takeWhile_imp hdm
        rcases h.2 with hr | hr
        · have : r = [] := by simpa [List.isEmpty_iff] using hr
          subst this
          rw [hs]
          exact RunSeq.unit _ c hne hdig h.1
        · rw [hs]
          exact RunSeq.cons _ c r hne hdig h.1 (ih r hr)

theorem runSeqAux_complete {sep : Char → Bool}
    (hnd : ∀ c, sep c = true → isDig c = false) {s : List Char}
    (h : RunSeq sep s) :
    ∀ fuel, s.length ≤ fuel → runSeqAux sep fuel s = true := by
  induction h with
  | unit ds c hne hds hc =>
    intro fuel hf
    have hlen : 1 ≤ ds.length := List.length_pos.2 hne
    rw [List.length_append] at hf
    cases fuel with
    | zero => simp only [List.length_cons, List.length_nil] at hf; omega
    | succ f =>
      have htw := takeWhile_digits [] hds (hnd c hc)
      rw [runSeqAux]
      rw [show ds ++ [c] = ds ++ c :: [] from rfl, htw.1, htw.2]
      simp [List.isEmpty_iff, hne, hc]
  | cons ds c t hne hds hc _ ih =>
    intro fuel hf
    have hlen : 1 ≤ ds.length := List.length_pos.2 hne
    rw [List.length_append, List.length_cons] at hf
    cases fuel with
    | zero => omega
    | succ f =>
      have htw := takeWhile_digits t hds (hnd c hc)
      rw [runSeqAux, htw.1, htw.2]
      simp only [List.isEmpty_iff, hne, if_neg, hc, Bool.true_and]
      have : runSeqAux sep f t = true := ih f (by omega)
      simp [this]

theorem runSeqB_iff {sep : Char → Bool}
    (hnd : ∀ c, sep c = true → isDig c = false) (s : List Char) :
    runSeqB sep s = true ↔ RunSeq sep s :=
  ⟨runSeqAux_sound s.length s,
   fun h => runSeqAux_complete hnd h s.length le_rfl⟩

theorem runSeq_strip {p : List Char} (h : RunSeq isSep p) :
    ∀ r, stripRuns (p ++ r) = stripRuns r := by
  induction h with
  | unit ds c hne hds hc =>
    intro r
    have : (ds ++ [c]) ++ r = ds ++ c :: r := by simp
    rw [this, stripRuns_unit (stripUnit_build r hne hds hc)]
  | cons ds c t hne hds hc _ ih =>
    intro r
    have : (ds ++ c :: t) ++ r = ds ++ c :: (t ++ r) := by simp
    rw [this, stripRuns_unit (stripUnit_build (t ++ r) hne hds hc)]
    exact ih r

theorem stripRuns_eq_drop (s : List Char) :
    stripRuns s = s.drop (stripLen s) := by
  obtain ⟨u, hu⟩ := stripRuns_suffix s
  have hlen : u.length + (stripRuns s).length = s.length := by
    have hcong := congrArg List.length hu
    simpa [List.length_append] using hcong
  have : stripLen s = u.length := by
    rw [stripLen]; omega
  rw [this]
  conv_lhs => rw [← List.drop_left u (stripRuns s), hu]

theorem stripLen_matches :
    ∀ (n : Nat) (s : List Char), s.length ≤ n → 0 < stripLen s →
      RunSeq isSep (s.take (stripLen s)) := by
  intro n
  induction n with
  | zero =>
    intro s hle hpos
    have hnil : s = [] := List.eq_nil_of_length_eq_zero (Nat.le_zero.1 hle)
    subst hnil
    simp [stripLen] at hpos
  | succ n ih =>
    intro s hle hpos
    cases hs : stripUnit s with
    | none =>
      rw [stripLen, stripRuns_none hs] at hpos
      omega
    | some r =>
      have hlen := stripUnit_length hs
      have hrs : stripRuns s = stripRuns r := stripRuns_unit hs
      have hrlen := stripRuns_length_le r
      obtain ⟨ds, c, rfl, hne, hds, hc⟩ := stripUnit_some hs
      have hsl : stripLen (ds ++ c :: r) = (ds.length + 1) + stripLen r := by
        rw [stripLen, stripLen, hrs, List.length_append, List.length_cons]
        omega
      have htake : (ds ++ c :: r).take (stripLen (ds ++ c :: r)) =
          ds ++ c :: r.take (stripLen r) := by
        rw [hsl]
        rw [List.take_append_eq_append_take]
        have h₁ : (ds.length + 1 + stripLen r) - ds.length = 1 + stripLen r := by omega
        have h₂ : ds.take (ds.length + 1 + stripLen r) = ds :=
          List.take_of_length_le (by omega)
        rw [h₁, h₂, List.take_cons (by omega)]
        simp
      rw [htake]
      by_cases hz : stripLen r = 0
      · rw [hz]
        simp only [List.take_zero]
        exact RunSeq.unit ds c hne hds hc
      · have hr := ih r (by simp [List.length_append] at hle; omega) (by omega)
        exact RunSeq.cons ds c _ hne hds hc hr

theorem stripLen_max {s : List Char} {k : Nat} (hk : k ≤ s.length)
    (h : RunSeq isSep (s.take k)) : k ≤ stripLen s := by
  have hsplit : s.take k ++ s.drop k = s := List.take_append_drop k s
  have hstrip : stripRuns s = stripRuns (s.drop k) := by
    conv_lhs => rw [← hsplit]
    exact runSeq_strip h (s.drop k)
  have h₁ : (stripRuns (s.drop k)).length ≤ s.length - k := by
    have := stripRuns_length_le (s.drop k)
    simpa [List.length_drop] using this
  rw [stripLen, hstrip]
  omega

theorem stripRuns_of_stripLen_zero {s : List Char} (h : stripLen s = 0) :
    stripRuns s = s := by
  rw [stripRuns_eq_drop, h, List.drop_zero]

theorem strip_eq_of_no_run {s : List Char} (h : stripRuns s = s) :
    strip_track_number s = s := by
  rw [strip_track_number, h]
  by_cases he : s.isEmpty <;> simp [he]

theorem maxRun_eq (s : List Char) : maxRun s = stripLen s := by
  rw [maxRun, Nat.findGreatest_eq_iff]
  have hle : stripLen s ≤ s.length := by rw [stripLen]; omega
  refine ⟨hle, ?_, ?_⟩
  · intro hne
    have hpos : 0 < stripLen s := Nat.pos_of_ne_zero hne
    exact (runSeqB_iff (fun c hc => sep_not_dig hc) _).2
      (stripLen_matches s.length s le_rfl hpos)
  · intro n hlt hn hP
    have := stripLen_max hn ((runSeqB_iff (fun c hc => sep_not_dig hc) _).1 hP)
    omega

/-- C3 (corrected claim): the characterisation of `strip_track_number` holds
with the separator class `[-\s]` (a hyphen or any whitespace character, as in
the code's regex), not merely hyphen-or-space: when some non-empty prefix of
the filename matches `(\d+[-\s])+`, the function removes exactly the longest
such prefix (unless that would leave the empty string, in which case the
input is returned unchanged); when no non-empty prefix matches, the function
is the identity; and a non-empty input never maps to the empty string. -/
theorem C3_sanitize_spec (s : List Char) :
    ((∀ k, 0 < k → k ≤ s.length → ¬ RunSeq isSep (s.take k)) →
      strip_track_number s = s)
  ∧ (∀ k, 0 < k → k ≤ s.length → RunSeq isSep (s.take k) →
      RunSeq isSep (s.take (maxRun s)) ∧
      (∀ j, maxRun s < j → j ≤ s.length → ¬ RunSeq isSep (s.take j)) ∧
      (s.drop (maxRun s) ≠ [] → strip_track_number s = s.drop (maxRun s)) ∧
      (s.drop (maxRun s) = [] → strip_track_number s = s))
  ∧ (s ≠ [] → strip_track_number s ≠ []) := by
  refine ⟨?_, ?_, ?_⟩
  · intro hnone
    have hz : stripLen s = 0 := by
      by_contra hnz
      have hpos : 0 < stripLen s := Nat.pos_of_ne_zero hnz
      have hle : stripLen s ≤ s.length := by rw [stripLen]; omega
      exact hnone (stripLen s) hpos hle (stripLen_matches s.length s le_rfl hpos)
    exact strip_eq_of_no_run (stripRuns_of_stripLen_zero hz)
  · intro k hk hkle hmatch
    have hkmax : k ≤ stripLen s := stripLen_max hkle hmatch
    have hpos : 0 < stripLen s := by omega
    have hle : stripLen s ≤ s.length := by rw [stripLen]; omega
    refine ⟨?_, ?_, ?_, ?_⟩
    · rw [maxRun_eq]
      exact stripLen_matches s.length s le_rfl hpos
    · intro j hj hjle hmatchj
      rw [maxRun_eq] at hj
      have := stripLen_max hjle hmatchj
      omega
    · intro hne
      rw [maxRun_eq] at hne ⊢
      rw [strip_track_number, stripRuns_eq_drop]
      simp only [List.isEmpty_iff, hne, if_neg, not_false_iff, if_false]
    · intro hnil
      rw [maxRun_eq] at hnil
      rw [strip_track_number, stripRuns_eq_drop, hnil]
      simp
  · intro hne
    rw [strip_track_number]
    by_cases he : (stripRuns s).isEmpty
    · simp [he, hne]
    · simp only [he, Bool.false_eq_true, not_false_iff, if_false]
      simpa [List.isEmpty_iff] using he

/-- Witness for C3: on the filename `1-05 Song.m4a` the prefix `1-05 ` (of
length 5) matches the run pattern and the sanitizer removes exactly the
maximal matched run. -/
theorem C3_sanitize_spec_witness :
    0 < 5 ∧ RunSeq isSep (("1-05 Song.m4a".data).take 5) ∧
    strip_track_number "1-05 Song.m4a".data =
      ("1-05 Song.m4a".data).drop (maxRun "1-05 Song.m4a".data) := by
  have hrs : RunSeq isSep (("1-05 Song.m4a".data).take 5) :=
    (runSeqB_iff (fun c hc => sep_not_dig hc) _).1 (by decide)
  refine ⟨by decide, hrs, ?_⟩
  have h := (C3_sanitize_spec "1-05 Song.m4a".data).2.1 5 (by decide) (by decide) hrs
  exact h.2.2.1 (by decide)

/-- Counterexample to C3 as stated: the claim's separator class is "a hyphen
or a space", but the code's regex class `[-\s]` also accepts a tab: on the
input `1<TAB>A`, which has no leading digit-hyphen-or-space run in the
claim's sense, the sanitizer is not the identity. -/
theorem C3_counterexample :
    strip_track_number ('1' :: '\t' :: 'A' :: []) ≠ ('1' :: '\t' :: 'A' :: []) ∧
    ¬ RunSeq specSep (('1' :: '\t' :: 'A' :: []).take 1) ∧
    ¬ RunSeq specSep (('1' :: '\t' :: 'A' :: []).take 2) ∧
    ¬ RunSeq specSep (('1' :: '\t' :: 'A' :: []).take 3) := by
  refine ⟨by decide, ?_, ?_, ?_⟩ <;>
    exact fun h => absurd ((runSeqB_iff (fun c hc => specSep_not_dig hc) _).2 h)
      (by decide)

/-! ## Lemmas about decimal rendering and collision names -/

theorem digVal_digChar {n : Nat} (h : n < 10) : digVal (digChar n) = n := by
  interval_cases n <;> decide

theorem natReprAux_stable :
    ∀ (f₁ f₂ n : Nat), n < f₁ → n < f₂ → natReprAux f₁ n = natReprAux f₂ n := by
  intro f₁
  induction f₁ with
  | zero => intro f₂ n h₁ _; omega
  | succ f ih =>
    intro f₂ n h₁ h₂
    cases f₂ with
    | zero => omega
    | succ g =>
      by_cases hn : n < 10
      · simp [natReprAux, hn]
      · have hdiv : n / 10 < n := Nat.div_lt_self (by omega) (by omega)
        simp only [natReprAux, hn, if_neg, if_false]
        rw [ih g (n / 10) (by omega) (by omega)]

theorem digitsVal_concat (xs : List Char) (c : Char) :
    digitsVal (xs ++ [c]) = 10 * digitsVal xs + digVal c := by
  rw [digitsVal, digitsVal, List.foldl_append]
  simp [Nat.mul_comm]

theorem natReprAux_val :
    ∀ (f n : Nat), n < f → digitsVal (natReprAux f n) = n := by
  intro f
  induction f with
  | zero => intro n h; omega
  | succ f ih =>
    intro n h
    by_cases hn : n < 10
    · simp [natReprAux, hn, digitsVal, digVal_digChar hn]
    · have hdiv : n / 10 < n := Nat.div_lt_self (by omega) (by omega)
      simp only [natReprAux, hn, if_neg, if_false]
      rw [digitsVal_concat, ih (n / 10) (by omega), digVal_digChar (Nat.mod_lt n (by omega))]
      omega

theorem natReprL_inj {m n : Nat} (h : natReprL m = natReprL n) : m = n := by
  have hm := natReprAux_val (m + 1) m (by omega)
  have hn := natReprAux_val (n + 1) n (by omega)
  rw [natReprL, natReprL] at h
  rw [← hm, ← hn, h]

theorem collideName_inj {stem sfx : List Char} {j k : Nat}
    (h : collideName stem sfx j = collideName stem sfx k) : j = k := by
  rw [collideName, collideName] at h
  have h₁ := List.append_cancel_left h
  have h₂ : natReprL j ++ sfx = natReprL k ++ sfx := by
    injection h₁
  exact natReprL_inj (List.append_cancel_right h₂)

theorem nameFree_iff (files : List FSFile) (d : List (List Char)) (n : List Char) :
    nameFree files d n = true ↔ ∀ f ∈ files, ¬(f.dir = d ∧ f.name = n) := by
  rw [nameFree, List.all_eq_true]
  simp only [decide_eq_true_eq]

theorem nameFree_false (files : List FSFile) (d : List (List Char)) (n : List Char) :
    nameFree files d n = false ↔ ∃ f ∈ files, f.dir = d ∧ f.name = n := by
  rw [← Bool.not_eq_true, nameFree_iff]
  push_neg
  simp only [not_not]

theorem exists_freeName (files : List FSFile) (d : List (List Char))
    (stem sfx : List Char) (k : Nat) :
    ∃ j, k ≤ j ∧ j < k + files.length + 1 ∧
      nameFree files d (collideName stem sfx j) = true := by
  by_contra hcon
  push_neg at hcon
  classical
  have hocc : ∀ j ∈ Finset.Ico k (k + files.length + 1),
      ∃ f ∈ files, f.dir = d ∧ f.name = collideName stem sfx j := by
    intro j hj
    rw [Finset.mem_Ico] at hj
    exact (nameFree_false files d _).1 (Bool.eq_false_iff.2 (hcon j hj.1 hj.2))
  set φ : Nat → FSFile := fun j =>
    if h : ∃ f ∈ files, f.dir = d ∧ f.name = collideName stem sfx j then
      h.choose
    else ⟨[], []⟩ with hφ
  have hval : ∀ j ∈ Finset.Ico k (k + files.length + 1),
      φ j ∈ files ∧ (φ j).name = collideName stem sfx j := by
    intro j hj
    have h := hocc j hj
    rw [hφ]
    simp only [dif_pos h]
    exact ⟨h.choose_spec.1, h.choose_spec.2.2⟩
  have hcard : files.toFinset.card <
      (Finset.Ico k (k + files.length + 1)).card := by
    rw [Nat.card_Ico]
    have := List.toFinset_card_le files
    omega
  obtain ⟨a, ha, b, hb, hab, heq⟩ :=
    Finset.exists_ne_map_eq_of_card_lt_of_maps_to hcard
      (fun j hj => List.mem_toFinset.2 (hval j hj).1)
  have hna := (hval a ha).2
  have hnb := (hval b hb).2
  rw [heq, hnb] at hna
  exact hab (collideName_inj hna.symm)

theorem findFreeAux_spec (files : List FSFile) (d : List (List Char))
    (stem sfx : List Char) :
    ∀ (fuel k : Nat),
      (∃ j, k ≤ j ∧ j < k + fuel ∧
        nameFree files d (collideName stem sfx j) = true) →
      ∃ j₀, k ≤ j₀ ∧
        nameFree files d (collideName stem sfx j₀) = true ∧
        (∀ i, k ≤ i → i < j₀ →
          nameFree files d (collideName stem sfx i) = false) ∧
        findFreeAux files d stem sfx k fuel = collideName stem sfx j₀ := by
  intro fuel
  induction fuel with
  | zero =>
    intro k h
    obtain ⟨j, h₁, h₂, -⟩ := h
    omega
  | succ fuel ih =>
    intro k h
    by_cases hk : nameFree files d (collideName stem sfx k) = true
    · exact ⟨k, le_rfl, hk, fun i h₁ h₂ => by omega, by rw [findFreeAux, if_pos hk]⟩
    · obtain ⟨j, h₁, h₂, h₃⟩ := h
      have hjk : j ≠ k := fun hjeq => hk (hjeq ▸ h₃)
      obtain ⟨j₀, g₁, g₂, g₃, g₄⟩ := ih (k + 1) ⟨j, by omega, by omega, h₃⟩
      refine ⟨j₀, by omega, g₂, ?_, ?_⟩
      · intro i hi₁ hi₂
        rcases Nat.eq_or_lt_of_le hi₁ with rfl | hlt
        · exact Bool.eq_false_iff.2 hk
        · exact g₃ i (by omega) hi₂
      · rw [findFreeAux, if_neg hk]
        exact g₄

theorem chooseName_taken {files : List FSFile} {d : List (List Char)}
    {clean : List Char} (sfx : List Char)
    (h : nameFree files d clean = false) :
    ∃ k, 1 ≤ k ∧
      chooseName files d clean sfx = collideName (pyStem clean) sfx k ∧
      nameFree files d (collideName (pyStem clean) sfx k) = true ∧
      ∀ i, 1 ≤ i → i < k →
        nameFree files d (collideName (pyStem clean) sfx i) = false := by
  obtain ⟨j, h₁, h₂, h₃⟩ := exists_freeName files d (pyStem clean) sfx 1
  obtain ⟨j₀, g₁, g₂, g₃, g₄⟩ :=
    findFreeAux_spec files d (pyStem clean) sfx (files.length + 1) 1
      ⟨j, h₁, by omega, h₃⟩
  refine ⟨j₀, g₁, ?_, g₂, g₃⟩
  rw [chooseName, if_neg (by simp [h]), g₄]

theorem chooseName_free (files : List FSFile) (d : List (List Char))
    (clean sfx : List Char) :
    nameFree files d (chooseName files d clean sfx) = true := by
  by_cases h : nameFree files d clean = true
  · rw [chooseName, if_pos h]; exact h
  · obtain ⟨k, -, h₂, h₃, -⟩ := chooseName_taken sfx (Bool.eq_false_iff.2 h)
    rw [h₂]; exact h₃

/-! ## Lemmas about the incremental relocation pass -/

theorem processFile_skip {d : List (List Char)} {fails : FSFile → Bool}
    {st : MoveSt} {f : FSFile} (h : f ∈ st.am) :
    processFile d fails st f = st := by
  rw [processFile, if_pos h]

theorem processFile_fail {d : List (List Char)} {fails : FSFile → Bool}
    {st : MoveSt} {f : FSFile} (h₁ : f ∉ st.am) (h₂ : fails f = true) :
    processFile d fails st f = st := by
  rw [processFile, if_neg h₁]
  simp only [h₂, if_true]

theorem processFile_move {d : List (List Char)} {fails : FSFile → Bool}
    {st : MoveSt} {f : FSFile} (h₁ : f ∉ st.am) (h₂ : fails f = false) :
    processFile d fails st f =
      { files := st.files.erase f ++
          [⟨d, chooseName st.files d (strip_track_number f.name) (pySuffix f.name)⟩],
        am := st.am ++ [f],
        nm := st.nm ++
          if pySuffix f.name ∈ audioExts then [strip_track_number f.name] else [] } := by
  rw [processFile, if_neg h₁]
  simp only [h₂, Bool.false_eq_true, if_false]

theorem processFile_am_mono (d : List (List Char)) (fails : FSFile → Bool)
    (st : MoveSt) (f : FSFile) : st.am ⊆ (processFile d fails st f).am := by
  by_cases h₁ : f ∈ st.am
  · rw [processFile_skip h₁]
    exact fun x hx => hx
  · by_cases h₂ : fails f = true
    · rw [processFile_fail h₁ h₂]
      exact fun x hx => hx
    · rw [processFile_move h₁ (Bool.eq_false_iff.2 h₂)]
      exact fun x hx => List.mem_append.2 (Or.inl hx)

theorem processFile_files_sub (d : List (List Char)) (fails : FSFile → Bool)
    (st : MoveSt) (f : FSFile) :
    ∀ g ∈ (processFile d fails st f).files, g ∈ st.files ∨ g.dir = d := by
  intro g hg
  by_cases h₁ : f ∈ st.am
  · rw [processFile_skip h₁] at hg; exact Or.inl hg
  · by_cases h₂ : fails f = true
    · rw [processFile_fail h₁ h₂] at hg; exact Or.inl hg
    · rw [processFile_move h₁ (Bool.eq_false_iff.2 h₂)] at hg
      rcases List.mem_append.1 hg with hg | hg
      · exact Or.inl (List.Sublist.mem hg (List.erase_sublist f st.files))
      · simp only [List.mem_singleton] at hg
        subst hg
        exact Or.inr rfl

theorem processFile_keeps (d : List (List Char)) (fails : FSFile → Bool)
    (st : MoveSt) (f : FSFile) {g : FSFile} (hg : g ∈ st.files) (hne : g ≠ f) :
    g ∈ (processFile d fails st f).files := by
  by_cases h₁ : f ∈ st.am
  · rw [processFile_skip h₁]; exact hg
  · by_cases h₂ : fails f = true
    · rw [processFile_fail h₁ h₂]; exact hg
    · rw [processFile_move h₁ (Bool.eq_false_iff.2 h₂)]
      exact List.mem_append.2 (Or.inl ((List.mem_erase_of_ne hne).2 hg))

theorem fkey_notMem_of_free {files : List FSFile} {d : List (List Char)}
    {n : List Char} (h : nameFree files d n = true) :
    (d, n) ∉ files.map fkey := by
  intro hmem
  obtain ⟨g, hg, hkey⟩ := List.mem_map.1 hmem
  rw [fkey, Prod.mk.injEq] at hkey
  exact ((nameFree_iff files d n).1 h g hg) ⟨hkey.1, hkey.2⟩

theorem processFile_nodup (d : List (List Char)) (fails : FSFile → Bool)
    (st : MoveSt) (f : FSFile) (h : nodupKeys st.files) :
    nodupKeys (processFile d fails st f).files := by
  by_cases h₁ : f ∈ st.am
  · rw [processFile_skip h₁]; exact h
  · by_cases h₂ : fails f = true
    · rw [processFile_fail h₁ h₂]; exact h
    · rw [processFile_move h₁ (Bool.eq_false_iff.2 h₂)]
      rw [nodupKeys, List.map_append, List.nodup_append]
      have herase : ((st.files.erase f).map fkey).Sublist (st.files.map fkey) :=
        List.Sublist.map fkey (List.erase_sublist f st.files)
      refine ⟨herase.nodup h, by simp, ?_⟩
      intro x hx
      simp only [List.map_cons, List.map_nil, List.mem_singleton]
      intro hxeq
      subst hxeq
      have hfree := chooseName_free st.files d (strip_track_number f.name) (pySuffix f.name)
      exact fkey_notMem_of_free hfree (herase.mem hx)

theorem mnf_preserve (P : MoveSt → Prop) (temp target : List (List Char))
    (lrc : Bool) (fails : FSFile → Bool)
    (hstep : ∀ s f, underDir temp f = true → P s → P (processFile target fails s f)) :
    ∀ st, P st → P (move_new_files temp target lrc fails st) := by
  intro st h
  rw [move_new_files]
  refine foldl_preserve P _ _ _ h ?_
  intro e _ s hs
  refine foldl_preserve P _ _ _ hs ?_
  intro f hf s' hs'
  have hf2 := (List.mem_filter.1 hf).2
  rw [Bool.and_eq_true] at hf2
  exact hstep s' f hf2.1 hs'

theorem mnf_am_mono (temp target : List (List Char)) (lrc : Bool)
    (fails : FSFile → Bool) (st : MoveSt) :
    st.am ⊆ (move_new_files temp target lrc fails st).am := by
  refine mnf_preserve (fun s => st.am ⊆ s.am) temp target lrc fails ?_ st
    (fun x hx => hx)
  intro s f _ hs
  exact hs.trans (processFile_am_mono target fails s f)

theorem mnf_nodup (temp target : List (List Char)) (lrc : Bool)
    (fails : FSFile → Bool) (st : MoveSt) (h : nodupKeys st.files) :
    nodupKeys (move_new_files temp target lrc fails st).files :=
  mnf_preserve (fun s => nodupKeys s.files) temp target lrc fails
    (fun s f _ hs => processFile_nodup target fails s f hs) st h

theorem mnf_target_keep (temp target : List (List Char)) (lrc : Bool)
    (fails : FSFile → Bool) (st : MoveSt) (htt : lpre temp target = false)
    {g : FSFile} (hg : g ∈ st.files) (hgd : g.dir = target) :
    g ∈ (move_new_files temp target lrc fails st).files := by
  refine mnf_preserve (fun s => g ∈ s.files) temp target lrc fails ?_ st hg
  intro s f hf hs
  refine processFile_keeps target fails s f hs ?_
  intro hgf
  subst hgf
  rw [underDir, hgd, htt] at hf
  cases hf

theorem mnf_fail_stays (temp target : List (List Char)) (lrc : Bool)
    (fails : FSFile → Bool) (st : MoveSt) {f : FSFile}
    (hfail : fails f = true) (hin : f ∈ st.files) (hout : f ∉ st.am) :
    f ∈ (move_new_files temp target lrc fails st).files ∧
    f ∉ (move_new_files temp target lrc fails st).am := by
  refine mnf_preserve (fun s => f ∈ s.files ∧ f ∉ s.am) temp target lrc fails ?_
    st ⟨hin, hout⟩
  intro s g _ hs
  by_cases h₁ : g ∈ s.am
  · rw [processFile_skip h₁]; exact hs
  · by_cases h₂ : fails g = true
    · rw [processFile_fail h₁ h₂]; exact hs
    · have hne : f ≠ g := by
        intro hfg
        subst hfg
        rw [hfail] at h₂
        exact h₂ rfl
      rw [processFile_move h₁ (Bool.eq_false_iff.2 h₂)]
      constructor
      · exact List.mem_append.2 (Or.inl ((List.mem_erase_of_ne hne).2 hs.1))
      · intro hmem
        rcases List.mem_append.1 hmem with hmem | hmem
        · exact hs.2 hmem
        · simp only [List.mem_singleton] at hmem
          exact hne hmem

theorem mnf_moved_stays (temp target : List (List Char)) (lrc : Bool)
    (fails : FSFile → Bool) (st : MoveSt) {f : FSFile}
    (hin : f ∈ st.files) (ham : f ∈ st.am) :
    f ∈ (move_new_files temp target lrc fails st).files ∧
    f ∈ (move_new_files temp target lrc fails st).am := by
  refine mnf_preserve (fun s => f ∈ s.files ∧ f ∈ s.am) temp target lrc fails ?_
    st ⟨hin, ham⟩
  intro s g _ hs
  by_cases h₁ : g ∈ s.am
  · rw [processFile_skip h₁]; exact hs
  · by_cases h₂ : fails g = true
    · rw [processFile_fail h₁ h₂]; exact hs
    · have hne : f ≠ g := fun hfg => h₁ (hfg ▸ hs.2)
      rw [processFile_move h₁ (Bool.eq_false_iff.2 h₂)]
      exact ⟨List.mem_append.2 (Or.inl ((List.mem_erase_of_ne hne).2 hs.1)),
        List.mem_append.2 (Or.inl hs.2)⟩

theorem processFile_files_under (temp target : List (List Char))
    (fails : FSFile → Bool) (htt : lpre temp target = false) (s : MoveSt)
    (f : FSFile) {g : FSFile} (hg : g ∈ (processFile target fails s f).files)
    (hunder : underDir temp g = true) : g ∈ s.files := by
  rcases processFile_files_sub target fails s f g hg with h | h
  · exact h
  · rw [underDir, h, htt] at hunder
    cases hunder

theorem innerFold_files_under (temp target : List (List Char))
    (fails : FSFile → Bool) (htt : lpre temp target = false) :
    ∀ (l : List FSFile) (s : MoveSt) (g : FSFile),
      g ∈ (l.foldl (processFile target fails) s).files →
      underDir temp g = true → g ∈ s.files := by
  intro l
  induction l with
  | nil => intro s g hg _; exact hg
  | cons f l ih =>
    intro s g hg hunder
    exact processFile_files_under temp target fails htt s f
      (ih (processFile target fails s f) g hg hunder) hunder

theorem innerFold_am_mono (target : List (List Char)) (fails : FSFile → Bool)
    (l : List FSFile) (s : MoveSt) :
    s.am ⊆ (l.foldl (processFile target fails) s).am := by
  refine foldl_preserve (fun s' => s.am ⊆ s'.am) _ l s (fun x hx => hx) ?_
  intro f _ s' hs'
  exact hs'.trans (processFile_am_mono target fails s' f)

theorem innerFold_covers (target : List (List Char)) (fails : FSFile → Bool)
    (hnf : ∀ f, fails f = false) :
    ∀ (l : List FSFile) (s : MoveSt) (g : FSFile), g ∈ l →
      g ∈ (l.foldl (processFile target fails) s).am ∨
      g ∉ (l.foldl (processFile target fails) s).files := by
  intro l
  induction l with
  | nil => intro s g hg; cases hg
  | cons f l ih =>
    intro s g hg
    rcases List.mem_cons.1 hg with rfl | hg
    · left
      have hstep : g ∈ (processFile target fails s g).am := by
        by_cases h₁ : g ∈ s.am
        · rw [processFile_skip h₁]; exact h₁
        · rw [processFile_move h₁ (hnf g)]
          exact List.mem_append.2 (Or.inr (by simp))
      exact innerFold_am_mono target fails l (processFile target fails s g) hstep
    · exact ih (processFile target fails s f) g hg

theorem innerFold_skips (target : List (List Char)) (fails : FSFile → Bool)
    (l : List FSFile) (s : MoveSt) (h : ∀ f ∈ l, f ∈ s.am) :
    l.foldl (processFile target fails) s = s :=
  foldl_fixed _ l s (fun f hf => processFile_skip (h f hf))

theorem mnf_covers (temp target : List (List Char)) (lrc : Bool)
    (fails : FSFile → Bool) (hnf : ∀ f, fails f = false)
    (htt : lpre temp target = false) (st : MoveSt) :
    ∀ e ∈ extsFor lrc, ∀ f ∈ (move_new_files temp target lrc fails st).files,
      underDir temp f = true → lsuf e f.name = true →
      f ∈ (move_new_files temp target lrc fails st).am := by
  rw [move_new_files]
  refine foldl_establish
    (fun e s => ∀ f ∈ s.files, underDir temp f = true → lsuf e f.name = true →
      f ∈ s.am) _ (extsFor lrc) st ?_ ?_
  · intro e _ s f hf hunder hsuf
    have hfs : f ∈ s.files :=
      innerFold_files_under temp target fails htt _ s f hf hunder
    have hcand : f ∈ candidates s.files temp e :=
      List.mem_filter.2 ⟨hfs, by rw [Bool.and_eq_true]; exact ⟨hunder, hsuf⟩⟩
    rcases innerFold_covers target fails hnf
      (candidates s.files temp e) s f hcand with h | h
    · exact h
    · exact absurd hf h
  · intro e e' s hQ f hf hunder hsuf
    have hfs : f ∈ s.files :=
      innerFold_files_under temp target fails htt _ s f hf hunder
    exact innerFold_am_mono target fails _ s (hQ f hfs hunder hsuf)

/-! ## Lemmas about the streaming loop and directories -/

theorem mkdirp_mem (d : List (List Char)) (fs : FS) : d ∈ (mkdirp d fs).dirs := by
  rw [mkdirp]
  by_cases h : d ∈ fs.dirs
  · exact List.mem_append.2 (Or.inl h)
  · refine List.mem_append.2 (Or.inr (List.mem_filter.2 ⟨?_, by simp [h]⟩))
    refine List.mem_map.2 ⟨d.length, ?_, List.take_length d⟩
    simp [List.mem_range]

theorem mkdirp_files (d : List (List Char)) (fs : FS) :
    (mkdirp d fs).files = fs.files := rfl

theorem rmtree_files {d : List (List Char)} {fs : FS} {g : FSFile}
    (hg : g ∈ (rmtree d fs).files) : g ∈ fs.files ∧ underDir d g = false := by
  have h := List.mem_filter.1 hg
  exact ⟨h.1, by simpa using h.2⟩

theorem rmtree_dirs {d : List (List Char)} {fs : FS} {p : List (List Char)}
    (hp : p ∈ (rmtree d fs).dirs) : p ∈ fs.dirs ∧ lpre d p = false := by
  have h := List.mem_filter.1 hp
  exact ⟨h.1, by simpa using h.2⟩

theorem rmtree_keep {d : List (List Char)} {fs : FS} {g : FSFile}
    (hg : g ∈ fs.files) (hout : underDir d g = false) :
    g ∈ (rmtree d fs).files :=
  List.mem_filter.2 ⟨hg, by simp [hout]⟩

theorem parseTrack_detected (l : List Char) (s : Session) :
    (parseTrack l s).detected = s.detected := by
  rw [parseTrack]
  cases findTrack l <;> rfl

theorem parseSong_detected (l : List Char) (s : Session) :
    (parseSong l s).detected = s.detected := by
  rw [parseSong]
  cases findSong l <;> rfl

theorem parseFail_detected (l : List Char) (s : Session) :
    (parseFail l s).detected = s.detected := by
  rw [parseFail]
  by_cases h : (hasSub "Error downloading".data l || hasSub "Skipping".data l) = true
  · rw [if_pos h]
    cases s.currentSong with
    | none => rfl
    | some t =>
      by_cases hm : t ∈ s.failed
      · simp [hm]
      · simp [hm]
  · rw [if_neg h]

theorem procLine_sess (downloads temp : List (List Char)) (lrc : Bool)
    (fails : FSFile → Bool) (st : OState) (ev : LineEvent) :
    (procLine downloads temp lrc fails st ev).sess =
      parseFail (pyStrip ev.line) (parseSong (pyStrip ev.line)
        (parseTrack (pyStrip ev.line)
          (match detLine st.sess.detected (pyStrip ev.line) with
           | some nm => { st.sess with detected := some nm }
           | none => st.sess))) := by
  rw [procLine]
  by_cases htick : ev.tick = true
  · simp only [htick, if_true]
    split <;> rfl
  · rw [Bool.not_eq_true] at htick
    simp only [htick, Bool.false_eq_true, if_false]

theorem procLine_detected (downloads temp : List (List Char)) (lrc : Bool)
    (fails : FSFile → Bool) (st : OState) (ev : LineEvent) :
    (procLine downloads temp lrc fails st ev).sess.detected =
      match detLine st.sess.detected (pyStrip ev.line) with
      | some nm => some nm
      | none => st.sess.detected := by
  rw [procLine_sess, parseFail_detected, parseSong_detected, parseTrack_detected]
  cases detLine st.sess.detected (pyStrip ev.line) <;> rfl

theorem detLine_of_some {detected : Option (List Char)} {l : List Char}
    (h : detected ≠ none) : detLine detected l = none := by
  rw [detLine]
  by_cases hp : hasSub "Processing".data l = true
  · rw [if_pos hp]
    cases findPlaylistSeg l with
    | none => rfl
    | some g => simp [h]
  · rw [if_neg hp]

theorem detLine_no_marker {detected : Option (List Char)} {l : List Char}
    (h : playlistMarker l = false) : detLine detected (pyStrip l) = none := by
  rw [playlistMarker, Bool.and_eq_false_iff] at h
  rw [detLine]
  rcases h with h | h
  · rw [if_neg (by simp [h])]
  · by_cases hp : hasSub "Processing".data (pyStrip l) = true
    · rw [if_pos hp]
      cases hseg : findPlaylistSeg (pyStrip l) with
      | none => rfl
      | some g => rw [hseg, Option.isSome_some] at h; cases h
    · rw [if_neg hp]

theorem procLine_detected_stable (downloads temp : List (List Char)) (lrc : Bool)
    (fails : FSFile → Bool) (st : OState) (ev : LineEvent) {p : List Char}
    (h : st.sess.detected = some p) :
    (procLine downloads temp lrc fails st ev).sess.detected = some p := by
  rw [procLine_detected, detLine_of_some (by rw [h]; exact fun hc => by cases hc)]
  exact h

theorem procLine_no_marker (downloads temp : List (List Char)) (lrc : Bool)
    (fails : FSFile → Bool) (st : OState) (ev : LineEvent)
    (hdet : st.sess.detected = none) (hm : playlistMarker ev.line = false) :
    (procLine downloads temp lrc fails st ev).sess.detected = none ∧
    (procLine downloads temp lrc fails st ev).am = st.am ∧
    (procLine downloads temp lrc fails st ev).fs.files = st.fs.files ++ ev.writes ∧
    (procLine downloads temp lrc fails st ev).fs.dirs = st.fs.dirs := by
  have hdl : detLine st.sess.detected (pyStrip ev.line) = none := detLine_no_marker hm
  have hpd : (parseFail (pyStrip ev.line) (parseSong (pyStrip ev.line)
      (parseTrack (pyStrip ev.line) st.sess))).detected = none := by
    rw [parseFail_detected, parseSong_detected, parseTrack_detected]
    exact hdet
  refine ⟨?_, ?_, ?_, ?_⟩ <;>
    · rw [procLine]
      simp only [hdl]
      by_cases htick : ev.tick = true
      · simp only [htick, if_true, hpd]
      · rw [Bool.not_eq_true] at htick
        simp only [htick, Bool.false_eq_true, if_false, hpd]

theorem procLine_tick_detected (downloads temp : List (List Char)) (lrc : Bool)
    (fails : FSFile → Bool) (st : OState) (ev : LineEvent) {p : List Char}
    (hdet : st.sess.detected = some p) (htick : ev.tick = true) :
    (procLine downloads temp lrc fails st ev).fs.files =
      (move_new_files temp (downloads ++ [p]) lrc fails
        ⟨st.fs.files ++ ev.writes, st.am, []⟩).files ∧
    (procLine downloads temp lrc fails st ev).am =
      (move_new_files temp (downloads ++ [p]) lrc fails
        ⟨st.fs.files ++ ev.writes, st.am, []⟩).am := by
  have hdl : detLine st.sess.detected (pyStrip ev.line) = none :=
    detLine_of_some (by rw [hdet]; exact fun hc => by cases hc)
  have hpd : (parseFail (pyStrip ev.line) (parseSong (pyStrip ev.line)
      (parseTrack (pyStrip ev.line) st.sess))).detected = some p := by
    rw [parseFail_detected, parseSong_detected, parseTrack_detected]
    exact hdet
  constructor <;>
    · rw [procLine]
      simp only [hdl, htick, if_true, hpd]

theorem procLine_detect (downloads temp : List (List Char)) (lrc : Bool)
    (fails : FSFile → Bool) (st : OState) (ev : LineEvent) {g : List Char}
    (hdet : st.sess.detected = none)
    (hp : hasSub "Processing".data (pyStrip ev.line) = true)
    (hseg : findPlaylistSeg (pyStrip ev.line) = some g) :
    (procLine downloads temp lrc fails st ev).sess.detected = some (normName g) ∧
    downloads ++ [normName g] ∈ (procLine downloads temp lrc fails st ev).fs.dirs := by
  have hdl : detLine st.sess.detected (pyStrip ev.line) = some (normName g) := by
    rw [detLine, if_pos hp, hseg]
    simp [hdet]
  have hpd : (parseFail (pyStrip ev.line) (parseSong (pyStrip ev.line)
      (parseTrack (pyStrip ev.line)
        { st.sess with detected := some (normName g) }))).detected =
      some (normName g) := by
    rw [parseFail_detected, parseSong_detected, parseTrack_detected]
  constructor
  · rw [procLine_detected, hdl]
  · rw [procLine]
    simp only [hdl]
    by_cases htick : ev.tick = true
    · simp only [htick, if_true, hpd]
      exact mkdirp_mem _ _
    · rw [Bool.not_eq_true] at htick
      simp only [htick, Bool.false_eq_true, if_false]
      exact mkdirp_mem _ _

theorem eventWrites_cons (e : LineEvent) (events : List LineEvent) :
    eventWrites (e :: events) = e.writes ++ eventWrites events := by
  simp [eventWrites]

theorem streamFold_no_marker (downloads temp : List (List Char)) (lrc : Bool)
    (fails : FSFile → Bool) :
    ∀ (events : List LineEvent) (st : OState),
      st.sess.detected = none →
      (∀ e ∈ events, playlistMarker e.line = false) →
      (events.foldl (procLine downloads temp lrc fails) st).sess.detected = none ∧
      (events.foldl (procLine downloads temp lrc fails) st).am = st.am ∧
      (events.foldl (procLine downloads temp lrc fails) st).fs.files =
        st.fs.files ++ eventWrites events ∧
      (events.foldl (procLine downloads temp lrc fails) st).fs.dirs = st.fs.dirs := by
  intro events
  induction events with
  | nil =>
    intro st hdet _
    exact ⟨hdet, rfl, by simp [eventWrites], rfl⟩
  | cons e events ih =>
    intro st hdet hm
    have hstep := procLine_no_marker downloads temp lrc fails st e hdet (hm e (by simp))
    have ihh := ih (procLine downloads temp lrc fails st e) hstep.1
      (fun x hx => hm x (by simp [hx]))
    refine ⟨ihh.1, ?_, ?_, ?_⟩
    · rw [List.foldl_cons, ihh.2.1, hstep.2.1]
    · rw [List.foldl_cons, ihh.2.2.1, hstep.2.2.1, eventWrites_cons, List.append_assoc]
    · rw [List.foldl_cons, ihh.2.2.2, hstep.2.2.2]

/-! ## Claim theorems -/

/-- Counterexample to C1 as stated: a streaming step whose 2-second tick has
elapsed while no playlist name was detected performs no incremental
relocation at all -- the finished scratch file stays in the scratch
directory, nothing is recorded in `already_moved`, and nothing lands in the
base downloads directory, contradicting the claim that relocation into the
base directory still occurs. -/
theorem C1_counterexample :
    c1ev.tick = true ∧
    c1res.sess.detected = none ∧
    c1res.fs.files = [⟨tmpdir, "song.m4a".data⟩] ∧
    c1res.am = [] ∧
    FSFile.mk dldir "song.m4a".data ∉ c1res.fs.files := by
  decide

/-- C1 (corrected claim): on a streaming tick the incremental relocator is
invoked only when a playlist name has been detected, targeting the scratch
directory into the detected playlist subdirectory; over any stretch of
streaming in which no line fires the playlist marker (and no name was
detected before it), no incremental relocation happens at all -- the
`already_moved` set stays unchanged and the filesystem changes only by the
fetcher's own writes. -/
theorem C1_relocation_gating :
    (∀ (downloads temp : List (List Char)) (lrc : Bool) (fails : FSFile → Bool)
       (st : OState) (events : List LineEvent),
       st.sess.detected = none →
       (∀ e ∈ events, playlistMarker e.line = false) →
       (events.foldl (procLine downloads temp lrc fails) st).am = st.am ∧
       (events.foldl (procLine downloads temp lrc fails) st).fs.files =
         st.fs.files ++ eventWrites events ∧
       (events.foldl (procLine downloads temp lrc fails) st).sess.detected = none)
  ∧ (∀ (downloads temp : List (List Char)) (lrc : Bool) (fails : FSFile → Bool)
       (st : OState) (ev : LineEvent) (p : List Char),
       st.sess.detected = some p → ev.tick = true →
       (procLine downloads temp lrc fails st ev).fs.files =
         (move_new_files temp (downloads ++ [p]) lrc fails
           ⟨st.fs.files ++ ev.writes, st.am, []⟩).files ∧
       (procLine downloads temp lrc fails st ev).am =
         (move_new_files temp (downloads ++ [p]) lrc fails
           ⟨st.fs.files ++ ev.writes, st.am, []⟩).am) := by
  constructor
  · intro downloads temp lrc fails st events hdet hm
    have h := streamFold_no_marker downloads temp lrc fails events st hdet hm
    exact ⟨h.2.1, h.2.2.1, h.1⟩
  · intro downloads temp lrc fails st ev p hdet htick
    exact procLine_tick_detected downloads temp lrc fails st ev hdet htick

/-- Witness for C1: a tick in a session with detected playlist name `Mix`
performs the incremental relocation pass into `Downloads/Mix`. -/
theorem C1_relocation_gating_witness :
    (procLine dldir tmpdir false noFail c1bst c1bev).fs.files =
      (move_new_files tmpdir (dldir ++ ["Mix".data]) false noFail
        ⟨c1bst.fs.files ++ c1bev.writes, c1bst.am, []⟩).files ∧
    (procLine dldir tmpdir false noFail c1bst c1bev).am =
      (move_new_files tmpdir (dldir ++ ["Mix".data]) false noFail
        ⟨c1bst.fs.files ++ c1bev.writes, c1bst.am, []⟩).am :=
  C1_relocation_gating.2 dldir tmpdir false noFail c1bst c1bev ("Mix".data) rfl rfl

/-- C4 (confirmed): a relocation's target name is the sanitized name if no
file of that name exists, else `stem_n.suffix` for the first counter n from
1 for which no file of that name exists; a pass never disturbs files already
in the target directory, never makes two files share an on-disk path, and on
three scratch files sanitizing to `Song.m4a` produces `Song.m4a`,
`Song_1.m4a`, `Song_2.m4a`. -/
theorem C4_collision_resolution :
    (∀ (files : List FSFile) (d : List (List Char)) (clean sfx : List Char),
       nameFree files d clean = true → chooseName files d clean sfx = clean)
  ∧ (∀ (files : List FSFile) (d : List (List Char)) (clean sfx : List Char),
       nameFree files d clean = false →
       ∃ k, 1 ≤ k ∧
         chooseName files d clean sfx = collideName (pyStem clean) sfx k ∧
         nameFree files d (collideName (pyStem clean) sfx k) = true ∧
         ∀ i, 1 ≤ i → i < k →
           nameFree files d (collideName (pyStem clean) sfx i) = false)
  ∧ (∀ (temp target : List (List Char)) (lrc : Bool) (fails : FSFile → Bool)
       (st : MoveSt), lpre temp target = false →
       (nodupKeys st.files →
         nodupKeys (move_new_files temp target lrc fails st).files) ∧
       (∀ g ∈ st.files, g.dir = target →
         g ∈ (move_new_files temp target lrc fails st).files))
  ∧ (move_new_files tmpdir dldir true noFail collSt).files =
      [⟨dldir, "Song.m4a".data⟩, ⟨dldir, "Song_1.m4a".data⟩,
       ⟨dldir, "Song_2.m4a".data⟩] := by
  refine ⟨?_, ?_, ?_, by decide⟩
  · intro files d clean sfx h
    rw [chooseName, if_pos h]
  · intro files d clean sfx h
    exact chooseName_taken sfx h
  · intro temp target lrc fails st htt
    exact ⟨mnf_nodup temp target lrc fails st,
      fun g hg hgd => mnf_target_keep temp target lrc fails st htt hg hgd⟩

/-- Witness for C4: a free sanitized name is used as-is, and the collision
scenario's resulting directory listing has no duplicate on-disk paths. -/
theorem C4_collision_resolution_witness :
    chooseName [] dldir "Song.m4a".data ".m4a".data = "Song.m4a".data ∧
    nodupKeys (move_new_files tmpdir dldir true noFail collSt).files := by
  refine ⟨C4_collision_resolution.1 [] dldir "Song.m4a".data ".m4a".data (by decide), ?_⟩
  exact (C4_collision_resolution.2.2.1 tmpdir dldir true noFail collSt
    (by decide)).1 (by unfold nodupKeys; decide)

/-- C5 (confirmed): a failing move leaves the pass state untouched (nothing
recorded, so the scan continues with the remaining candidates and the file
stays eligible), a file already in `already_moved` is skipped, a successful
move appends the source path to `already_moved`, `already_moved` only grows
across a pass, a failing candidate survives the whole pass on disk and out
of `already_moved`, and an already-moved path is skipped by any later pass
(it is never moved again). -/
theorem C5_failure_swallowed :
    (∀ (d : List (List Char)) (fails : FSFile → Bool) (st : MoveSt) (f : FSFile),
       f ∉ st.am → fails f = true → processFile d fails st f = st)
  ∧ (∀ (d : List (List Char)) (fails : FSFile → Bool) (st : MoveSt) (f : FSFile),
       f ∈ st.am → processFile d fails st f = st)
  ∧ (∀ (d : List (List Char)) (fails : FSFile → Bool) (st : MoveSt) (f : FSFile),
       f ∉ st.am → fails f = false →
       (processFile d fails st f).am = st.am ++ [f] ∧
       (processFile d fails st f).nm = st.nm ++
         (if pySuffix f.name ∈ audioExts then [strip_track_number f.name] else []))
  ∧ (∀ (temp target : List (List Char)) (lrc : Bool) (fails : FSFile → Bool)
       (st : MoveSt), st.am ⊆ (move_new_files temp target lrc fails st).am)
  ∧ (∀ (temp target : List (List Char)) (lrc : Bool) (fails : FSFile → Bool)
       (st : MoveSt) (f : FSFile),
       fails f = true → f ∈ st.files → f ∉ st.am →
       f ∈ (move_new_files temp target lrc fails st).files ∧
       f ∉ (move_new_files temp target lrc fails st).am)
  ∧ (∀ (temp target : List (List Char)) (lrc : Bool) (fails : FSFile → Bool)
       (st : MoveSt) (f : FSFile),
       f ∈ st.files → f ∈ st.am →
       f ∈ (move_new_files temp target lrc fails st).files ∧
       f ∈ (move_new_files temp target lrc fails st).am) := by
  refine ⟨?_, ?_, ?_, ?_, ?_, ?_⟩
  · intro d fails st f h₁ h₂
    exact processFile_fail h₁ h₂
  · intro d fails st f h
    exact processFile_skip h
  · intro d fails st f h₁ h₂
    rw [processFile_move h₁ h₂]
    exact ⟨rfl, rfl⟩
  · intro temp target lrc fails st
    exact mnf_am_mono temp target lrc fails st
  · intro temp target lrc fails st f h₁ h₂ h₃
    exact mnf_fail_stays temp target lrc fails st h₁ h₂ h₃
  · intro temp target lrc fails st f h₁ h₂
    exact mnf_moved_stays temp target lrc fails st h₁ h₂

/-- Witness for C5: a failing move of the only candidate leaves the state
exactly as it was. -/
theorem C5_failure_swallowed_witness :
    processFile dldir (fun _ => true)
      ⟨[⟨tmpdir, "a.m4a".data⟩], [], []⟩ ⟨tmpdir, "a.m4a".data⟩ =
      ⟨[⟨tmpdir, "a.m4a".data⟩], [], []⟩ :=
  C5_failure_swallowed.1 dldir (fun _ => true)
    ⟨[⟨tmpdir, "a.m4a".data⟩], [], []⟩ ⟨tmpdir, "a.m4a".data⟩ (by decide) rfl

/-- C6 (confirmed): once a playlist name is detected it never changes (later
marker lines, even with different segments, are ignored); the first marker
line sets the name to the matched segment with hyphens and `%20` replaced by
spaces (case preserved) and immediately creates the playlist directory; the
URL-derived fallback title-cases instead; and the two-line concrete scenario
detects `My Great MIX` exactly once. -/
theorem C6_playlist_detection :
    (∀ (downloads temp : List (List Char)) (lrc : Bool) (fails : FSFile → Bool)
       (st : OState) (ev : LineEvent) (p : List Char),
       st.sess.detected = some p →
       (procLine downloads temp lrc fails st ev).sess.detected = some p)
  ∧ (∀ (downloads temp : List (List Char)) (lrc : Bool) (fails : FSFile → Bool)
       (st : OState) (ev : LineEvent) (g : List Char),
       st.sess.detected = none →
       hasSub "Processing".data (pyStrip ev.line) = true →
       findPlaylistSeg (pyStrip ev.line) = some g →
       (procLine downloads temp lrc fails st ev).sess.detected =
         some (normName g) ∧
       downloads ++ [normName g] ∈ (procLine downloads temp lrc fails st ev).fs.dirs)
  ∧ (normName "My-Great-MIX".data = "My Great MIX".data ∧
     extract_playlist_name "https://m/playlist/my-great-mix/pl".data =
       some "My Great Mix".data ∧
     c6res.sess.detected = some "My Great MIX".data ∧
     dldir ++ ["My Great MIX".data] ∈ c6res.fs.dirs) := by
  refine ⟨?_, ?_, by decide⟩
  · intro downloads temp lrc fails st ev p h
    exact procLine_detected_stable downloads temp lrc fails st ev h
  · intro downloads temp lrc fails st ev g hdet hp hseg
    exact procLine_detect downloads temp lrc fails st ev hdet hp hseg

/-- Witness for C6: the first marker line of the scenario sets the detected
name to the normalised segment and creates the playlist directory. -/
theorem C6_playlist_detection_witness :
    (procLine dldir tmpdir false noFail c6init c6ev1).sess.detected =
      some (normName "My-Great-MIX".data) ∧
    dldir ++ [normName "My-Great-MIX".data] ∈
      (procLine dldir tmpdir false noFail c6init c6ev1).fs.dirs :=
  C6_playlist_detection.2.1 dldir tmpdir false noFail c6init c6ev1
    ("My-Great-MIX".data) rfl (by decide) (by decide)

/-- C8 (confirmed): when every move of an incremental pass succeeds and the
target directory is not inside the scratch directory, running the pass again
immediately (same source, target and `already_moved` set, no files added in
between) is a no-op: the second call returns an empty newly-moved list and
leaves the filesystem and `already_moved` unchanged. -/
theorem C8_idempotent (temp target : List (List Char)) (lrc : Bool)
    (fails : FSFile → Bool) (fs am : List FSFile)
    (hnf : ∀ f, fails f = false) (htt : lpre temp target = false) :
    move_new_files temp target lrc fails
      ⟨(move_new_files temp target lrc fails ⟨fs, am, []⟩).files,
       (move_new_files temp target lrc fails ⟨fs, am, []⟩).am, []⟩ =
    ⟨(move_new_files temp target lrc fails ⟨fs, am, []⟩).files,
     (move_new_files temp target lrc fails ⟨fs, am, []⟩).am, []⟩ := by
  have hcov := mnf_covers temp target lrc fails hnf htt ⟨fs, am, []⟩
  conv_lhs => rw [move_new_files]
  refine foldl_fixed _ _ _ ?_
  intro e he
  refine innerFold_skips target fails _ _ ?_
  intro f hf
  have hmem := List.mem_filter.1 hf
  have hconj := hmem.2
  rw [Bool.and_eq_true] at hconj
  exact hcov e he f hmem.1 hconj.1 hconj.2

/-- Witness for C8: re-running the collision scenario's pass is a no-op. -/
theorem C8_idempotent_witness :
    move_new_files tmpdir dldir true noFail
      ⟨(move_new_files tmpdir dldir true noFail ⟨collSt.files, collSt.am, []⟩).files,
       (move_new_files tmpdir dldir true noFail ⟨collSt.files, collSt.am, []⟩).am, []⟩ =
    ⟨(move_new_files tmpdir dldir true noFail ⟨collSt.files, collSt.am, []⟩).files,
     (move_new_files tmpdir dldir true noFail ⟨collSt.files, collSt.am, []⟩).am, []⟩ :=
  C8_idempotent tmpdir dldir true noFail collSt.files collSt.am
    (fun _ => rfl) (by decide)

/-- C2 (confirmed): the emitted report is exactly `mkReport` of the session's
failed list, total-track count, counted files, location and exit code; a
non-empty failed list is shown truncated to its first 10 names with the
overflow count and suppresses the full-success message; an empty failed list
yields full success exactly when `totalTracks > 0` and the count reaches it;
and the end-to-end scenario reports failed list `["B"]`, file count 2, and no
full-success message. -/
theorem C2_report_rules :
    (∀ (downloads : List (List Char)) (url : List Char) (lrc : Bool)
       (fails : FSFile → Bool) (fs0 : FS) (events : List LineEvent) (ec : Int),
       (run_download downloads url lrc fails fs0 events ec).report =
         mkReport (run_download downloads url lrc fails fs0 events ec).sess.failed
           (run_download downloads url lrc fails fs0 events ec).sess.total
           (run_download downloads url lrc fails fs0 events ec).report.filesDownloaded
           (run_download downloads url lrc fails fs0 events ec).report.location ec)
  ∧ (∀ (failed : List (List Char)) (total cnt : Nat) (loc : Option (List Char))
       (ec : Int),
       (failed ≠ [] →
         (mkReport failed total cnt loc ec).failedShown = failed.take 10 ∧
         (mkReport failed total cnt loc ec).moreCount =
           (if 10 < failed.length then failed.length - 10 else 0) ∧
         (mkReport failed total cnt loc ec).fullSuccess = false) ∧
       (failed = [] →
         ((mkReport failed total cnt loc ec).fullSuccess = true ↔
           0 < total ∧ total ≤ cnt)))
  ∧ (c2run.sess.failed = ["B".data] ∧
     c2run.report.filesDownloaded = 2 ∧
     c2run.report.fullSuccess = false ∧
     c2run.report.failedShown = ["B".data] ∧
     c2run.report.moreCount = 0 ∧
     c2run.report.location = none) := by
  refine ⟨?_, ?_, by decide⟩
  · intro downloads url lrc fails fs0 events ec
    rfl
  · intro failed total cnt loc ec
    constructor
    · intro hne
      refine ⟨rfl, rfl, ?_⟩
      rw [mkReport]
      simp [List.isEmpty_iff, hne]
    · intro hnil
      subst hnil
      rw [mkReport]
      simp [Bool.and_eq_true, decide_eq_true_iff]

/-- Witness for C2: the report rules applied to the scenario's failed list
and to an all-success session. -/
theorem C2_report_rules_witness :
    (mkReport ["B".data] 3 2 none 0).fullSuccess = false ∧
    (mkReport [] 3 3 none 0).fullSuccess = true := by
  constructor
  · exact ((C2_report_rules.2.1 ["B".data] 3 2 none 0).1 (by decide)).2.2
  · exact ((C2_report_rules.2.1 [] 3 3 none 0).2 rfl).2 ⟨by decide, by decide⟩

/-- C9 (confirmed): a completed session's return value is true exactly when
the subprocess exited zero and at least one audio file was counted in the
final target directory; the exit code influences nothing else -- the final
filesystem, session state and every other report field are identical for any
two exit codes, so finalization and reporting happen regardless of a
non-zero exit. -/
theorem C9_returnValue :
    (∀ (downloads : List (List Char)) (url : List Char) (lrc : Bool)
       (fails : FSFile → Bool) (fs0 : FS) (events : List LineEvent) (ec : Int),
       ((run_download downloads url lrc fails fs0 events ec).report.retval = true ↔
         ec = 0 ∧
         0 < (run_download downloads url lrc fails fs0 events ec).report.filesDownloaded))
  ∧ (∀ (downloads : List (List Char)) (url : List Char) (lrc : Bool)
       (fails : FSFile → Bool) (fs0 : FS) (events : List LineEvent) (ec ec' : Int),
       (run_download downloads url lrc fails fs0 events ec).fs =
         (run_download downloads url lrc fails fs0 events ec').fs ∧
       (run_download downloads url lrc fails fs0 events ec).sess =
         (run_download downloads url lrc fails fs0 events ec').sess ∧
       (run_download downloads url lrc fails fs0 events ec).report.filesDownloaded =
         (run_download downloads url lrc fails fs0 events ec').report.filesDownloaded ∧
       (run_download downloads url lrc fails fs0 events ec).report.location =
         (run_download downloads url lrc fails fs0 events ec').report.location ∧
       (run_download downloads url lrc fails fs0 events ec).report.failedShown =
         (run_download downloads url lrc fails fs0 events ec').report.failedShown ∧
       (run_download downloads url lrc fails fs0 events ec).report.moreCount =
         (run_download downloads url lrc fails fs0 events ec').report.moreCount ∧
       (run_download downloads url lrc fails fs0 events ec).report.fullSuccess =
         (run_download downloads url lrc fails fs0 events ec').report.fullSuccess) := by
  constructor
  · intro downloads url lrc fails fs0 events ec
    have h : (run_download downloads url lrc fails fs0 events ec).report.retval =
        (ec == 0 &&
          decide (0 < (run_download downloads url lrc fails fs0 events ec).report.filesDownloaded)) :=
      rfl
    rw [h, Bool.and_eq_true, beq_iff_eq, decide_eq_true_iff]
  · intro downloads url lrc fails fs0 events ec ec'
    exact ⟨rfl, rfl, rfl, rfl, rfl, rfl, rfl⟩

/-! ## Lemmas about the terminal flatten pass -/

theorem foldl_append_mem {α β : Type} (g : β → List α) :
    ∀ (l : List β) (init : List α) (x : α),
      x ∈ l.foldl (fun acc e => acc ++ g e) init ↔
        x ∈ init ∨ ∃ e ∈ l, x ∈ g e := by
  intro l
  induction l with
  | nil => intro init x; simp
  | cons e l ih =>
    intro init x
    rw [List.foldl_cons, ih]
    simp only [List.mem_append, List.mem_cons]
    constructor
    · rintro ((h | h) | ⟨e', he', hx⟩)
      · exact Or.inl h
      · exact Or.inr ⟨e, Or.inl rfl, h⟩
      · exact Or.inr ⟨e', Or.inr he', hx⟩
    · rintro (h | ⟨e', (rfl | he'), hx⟩)
      · exact Or.inl (Or.inl h)
      · exact Or.inl (Or.inr hx)
      · exact Or.inr ⟨e', he', hx⟩

theorem flattenCands_mem {temp : List (List Char)} {lrc : Bool}
    {files : List FSFile} {f : FSFile} :
    f ∈ flattenCands temp lrc files ↔
      ∃ e ∈ extsFor lrc, f ∈ candidates files temp e := by
  rw [flattenCands, foldl_append_mem]
  simp

theorem flattenFold_count (target : List (List Char)) :
    ∀ (l : List FSFile) (acc : List FSFile × Nat),
      (l.foldl (flattenStep target) acc).2 =
        acc.2 + (l.filter (fun f => decide (pySuffix f.name ∈ audioExts))).length := by
  intro l
  induction l with
  | nil => intro acc; simp
  | cons f l ih =>
    intro acc
    rw [List.foldl_cons, ih, List.filter_cons]
    by_cases h : pySuffix f.name ∈ audioExts <;> (simp [flattenStep, h]; try omega)

theorem flattenFold_moves (target temp : List (List Char))
    (htt : lpre temp target = false) :
    ∀ (l : List FSFile) (acc : List FSFile × Nat),
      (∀ g ∈ l, underDir temp g = true) →
      ∀ f ∈ l, ∃ nm,
        FSFile.mk target nm ∈ (l.foldl (flattenStep target) acc).1 := by
  intro l
  induction l with
  | nil => intro acc _ f hf; cases hf
  | cons g l ih =>
    intro acc hunder f hf
    rcases List.mem_cons.1 hf with rfl | hf
    · refine ⟨chooseName acc.1 target (strip_track_number f.name) (pySuffix f.name), ?_⟩
      rw [List.foldl_cons]
      have hstart : FSFile.mk target
          (chooseName acc.1 target (strip_track_number f.name) (pySuffix f.name)) ∈
          (flattenStep target acc f).1 := by
        rw [flattenStep]
        exact List.mem_append.2 (Or.inr (by simp))
      refine foldl_preserve
        (fun s : List FSFile × Nat => FSFile.mk target
          (chooseName acc.1 target (strip_track_number f.name) (pySuffix f.name)) ∈ s.1)
        _ l _ hstart ?_
      intro x hx s hs
      rw [flattenStep]
      refine List.mem_append.2 (Or.inl ((List.mem_erase_of_ne ?_).2 hs))
      intro heq
      have hxut : underDir temp x = true := hunder x (by simp [hx])
      rw [← heq] at hxut
      rw [underDir] at hxut
      rw [htt] at hxut
      cases hxut
    · exact ih (flattenStep target acc g)
        (fun x hx => hunder x (by simp [hx])) f hf

theorem flatten_count (temp finalDir : List (List Char)) (pl : Option (List Char))
    (lrc : Bool) (fs : FS) :
    (flatten_downloads temp finalDir pl lrc fs).2 =
      ((flattenCands temp lrc fs.files).filter
        (fun f => decide (pySuffix f.name ∈ audioExts))).length := by
  have h := flattenFold_count (flattenTarget finalDir pl)
    (flattenCands temp lrc fs.files)
    ((mkdirp (flattenTarget finalDir pl) fs).files, 0)
  simpa using h

theorem flatten_moves (temp finalDir : List (List Char)) (pl : Option (List Char))
    (lrc : Bool) (fs : FS)
    (htt : lpre temp (flattenTarget finalDir pl) = false) :
    ∀ f ∈ flattenCands temp lrc fs.files, ∃ nm,
      FSFile.mk (flattenTarget finalDir pl) nm ∈
        (flatten_downloads temp finalDir pl lrc fs).1.files := by
  intro f hf
  have hunder : ∀ g ∈ flattenCands temp lrc fs.files, underDir temp g = true := by
    intro g hg
    obtain ⟨e, -, hc⟩ := flattenCands_mem.1 hg
    have hgc := (List.mem_filter.1 hc).2
    rw [Bool.and_eq_true] at hgc
    exact hgc.1
  obtain ⟨nm, hnm⟩ := flattenFold_moves (flattenTarget finalDir pl) temp htt
    (flattenCands temp lrc fs.files)
    ((mkdirp (flattenTarget finalDir pl) fs).files, 0) hunder f hf
  refine ⟨nm, rmtree_keep hnm ?_⟩
  rw [underDir]
  exact htt

/-! ## Lemmas about the final audio-file count -/

theorem sum_map_add {α : Type} (l : List α) (a b : α → Nat) :
    (l.map (fun x => a x + b x)).sum = (l.map a).sum + (l.map b).sum := by
  induction l with
  | nil => rfl
  | cons x l ih =>
    simp only [List.map_cons, List.sum_cons, ih]
    omega

theorem audio_suffix_unique {e₁ e₂ n : List Char}
    (h₁ : e₁ ∈ audioExts) (h₂ : e₂ ∈ audioExts)
    (hs₁ : lsuf e₁ n = true) (hs₂ : lsuf e₂ n = true) : e₁ = e₂ := by
  have t₁ := (lsuf_iff e₁ n).1 hs₁
  have t₂ := (lsuf_iff e₂ n).1 hs₂
  have hx : ∀ a ∈ audioExts, ∀ b ∈ audioExts, a <:+ b → a = b := by
    intro a ha b hb hab
    have hlab : lsuf a b = true := (lsuf_iff a b).2 hab
    simp only [audioExts, List.mem_cons, List.not_mem_nil, or_false] at ha hb
    rcases ha with rfl | rfl | rfl | rfl | rfl <;>
      rcases hb with rfl | rfl | rfl | rfl | rfl <;>
      first | rfl | (revert hlab; decide)
  rcases List.suffix_or_suffix_of_suffix t₁ t₂ with h | h
  · exact hx e₁ h₁ e₂ h₂ h
  · exact (hx e₂ h₂ e₁ h₁ h).symm

theorem sum_ite_unique :
    ∀ (E : List (List Char)) (n : List Char),
      (∀ e₁ ∈ E, ∀ e₂ ∈ E, lsuf e₁ n = true → lsuf e₂ n = true → e₁ = e₂) →
      E.Nodup →
      ((E.map (fun e => if lsuf e n = true then 1 else 0)).sum : Nat) =
        if E.any (fun e => lsuf e n) = true then 1 else 0 := by
  intro E
  induction E with
  | nil => intro n _ _; rfl
  | cons e E ih =>
    intro n huniq hnd
    rw [List.nodup_cons] at hnd
    simp only [List.map_cons, List.sum_cons, List.any_cons]
    by_cases he : lsuf e n = true
    · have hrest : ∀ x ∈ E, lsuf x n = false := by
        intro x hx
        by_contra hxne
        have hxt : lsuf x n = true := by
          revert hxne
          cases lsuf x n <;> simp
        have hex : e = x := huniq e (List.mem_cons_self e E)
          x (List.mem_cons_of_mem e hx) he hxt
        exact hnd.1 (hex ▸ hx)
      have hsum0 : (E.map (fun x => if lsuf x n = true then 1 else 0)).sum = 0 := by
        apply List.sum_eq_zero
        intro x hx
        obtain ⟨y, hy, rfl⟩ := List.mem_map.1 hx
        simp [hrest y hy]
      have hany : E.any (fun x => lsuf x n) = false := by
        rw [Bool.eq_false_iff]
        intro hc
        obtain ⟨x, hx, hpx⟩ := List.any_eq_true.1 hc
        rw [hrest x hx] at hpx
        cases hpx
      simp [he, hsum0, hany]
    · have hne : lsuf e n = false := Bool.eq_false_iff.2 he
      have hih := ih n
        (fun a ha b hb => huniq a (List.mem_cons_of_mem e ha)
          b (List.mem_cons_of_mem e hb)) hnd.2
      simp [hne, hih]

theorem audioCount_cons (target : List (List Char)) (f : FSFile) (l : List FSFile) :
    audioCount target (f :: l) =
      (if (underDir target f && audioExts.any (fun e => lsuf e f.name)) = true
       then 1 else 0) + audioCount target l := by
  rw [audioCount, audioCount]
  have hmapeq : audioExts.map (fun e =>
      (List.filter (fun g => underDir target g && lsuf e g.name) (f :: l)).length) =
    audioExts.map (fun e =>
      (if (underDir target f && lsuf e f.name) = true then 1 else 0) +
      (List.filter (fun g => underDir target g && lsuf e g.name) l).length) := by
    refine List.map_congr_left ?_
    intro e _
    rw [List.filter_cons]
    by_cases h : (underDir target f && lsuf e f.name) = true <;> (simp [h]; try omega)
  rw [hmapeq, sum_map_add]
  congr 1
  by_cases hu : underDir target f = true
  · simp only [hu, Bool.true_and]
    exact sum_ite_unique audioExts f.name
      (fun a ha b hb => audio_suffix_unique ha hb) (by decide)
  · have hu' : underDir target f = false := Bool.eq_false_iff.2 hu
    simp [hu']

theorem count_distrib (target : List (List Char)) :
    ∀ (files : List FSFile),
      audioCount target files =
        (files.filter (fun f => underDir target f &&
          audioExts.any (fun e => lsuf e f.name))).length := by
  intro files
  induction files with
  | nil => rfl
  | cons f l ih =>
    rw [audioCount_cons, ih, List.filter_cons]
    by_cases h : (underDir target f && audioExts.any (fun e => lsuf e f.name)) = true <;>
      (simp [h]; try omega)

/-- C7 (confirmed): the terminal pass takes no `already_moved` set; after it,
no file or directory remains under the scratch directory; its return value
counts exactly the audio-extension candidates of its snapshot, with `.lrc`
sidecars excluded from the count and scanned only when sidecars are
included; every snapshot candidate ends up (under some collision-resolved
name) in the target directory; and after a completed `run_download` session
the scratch directory and its contents are gone. -/
theorem C7_finalization :
    (∀ (temp finalDir : List (List Char)) (pl : Option (List Char)) (lrc : Bool)
       (fs : FS),
       (∀ f ∈ (flatten_downloads temp finalDir pl lrc fs).1.files,
          underDir temp f = false) ∧
       (∀ dd ∈ (flatten_downloads temp finalDir pl lrc fs).1.dirs,
          lpre temp dd = false))
  ∧ (∀ (temp finalDir : List (List Char)) (pl : Option (List Char)) (lrc : Bool)
       (fs : FS),
       (flatten_downloads temp finalDir pl lrc fs).2 =
         ((flattenCands temp lrc fs.files).filter
           (fun f => decide (pySuffix f.name ∈ audioExts))).length)
  ∧ (∀ (temp finalDir : List (List Char)) (pl : Option (List Char)) (lrc : Bool)
       (fs : FS),
       lpre temp (flattenTarget finalDir pl) = false →
       ∀ f ∈ flattenCands temp lrc fs.files, ∃ nm,
         FSFile.mk (flattenTarget finalDir pl) nm ∈
           (flatten_downloads temp finalDir pl lrc fs).1.files)
  ∧ (∀ (downloads : List (List Char)) (url : List Char) (lrc : Bool)
       (fails : FSFile → Bool) (fs0 : FS) (events : List LineEvent) (ec : Int),
       (∀ f ∈ (run_download downloads url lrc fails fs0 events ec).fs.files,
          underDir (downloads ++ [".gamdl_temp".data]) f = false) ∧
       (∀ dd ∈ (run_download downloads url lrc fails fs0 events ec).fs.dirs,
          lpre (downloads ++ [".gamdl_temp".data]) dd = false)) := by
  refine ⟨?_, ?_, ?_, ?_⟩
  · intro temp finalDir pl lrc fs
    exact ⟨fun f hf => (rmtree_files hf).2, fun dd hdd => (rmtree_dirs hdd).2⟩
  · intro temp finalDir pl lrc fs
    exact flatten_count temp finalDir pl lrc fs
  · intro temp finalDir pl lrc fs htt
    exact flatten_moves temp finalDir pl lrc fs htt
  · intro downloads url lrc fails fs0 events ec
    exact ⟨fun f hf => (rmtree_files hf).2, fun dd hdd => (rmtree_dirs hdd).2⟩

/-- Witness for C7: flattening a scratch directory holding one audio file
into the base directory lands the file in the base directory. -/
theorem C7_finalization_witness :
    ∃ nm, FSFile.mk (flattenTarget dldir none) nm ∈
      (flatten_downloads tmpdir dldir none true
        ⟨[⟨tmpdir, "a.m4a".data⟩], [dldir, tmpdir]⟩).1.files :=
  C7_finalization.2.2.1 tmpdir dldir none true
    ⟨[⟨tmpdir, "a.m4a".data⟩], [dldir, tmpdir]⟩ (by decide)
    ⟨tmpdir, "a.m4a".data⟩ (by decide)

/-- C10 (confirmed): the reported count is a recursive glob for the audio
extensions over the final target directory -- it counts exactly the files
under that directory (at any depth) whose name carries an audio extension,
regardless of provenance; concretely, a session that downloads one file
into a base directory already holding one audio file plus one inside a
pre-existing playlist subdirectory reports 3. -/
theorem C10_count_semantics :
    (∀ (target : List (List Char)) (files : List FSFile),
       audioCount target files =
         (files.filter (fun f => underDir target f &&
           audioExts.any (fun e => lsuf e f.name))).length)
  ∧ (c10run.report.filesDownloaded = 3 ∧
     c10fs0.files.length = 2 ∧
     (eventWrites c10events).length = 1 ∧
     c10run.report.location = none) :=
  ⟨fun target files => count_distrib target files, by decide⟩

end RippleSpec
